import Mathlib

/-!
Verification of the repository analyzer (VS Code extension).

The TypeScript sources (`extension.ts`, `architectureAnalyzer.ts`,
`codeOptimizer.ts`, `repoManager.ts` with the bundled `SecurityAnalyzer`)
are shallowly embedded below.  JavaScript strings are modelled as `List Char`
(`Str`), the `split`, `trim`, `match` and `test` operations are implemented
with the exact semantics of the calls appearing in the sources, and the
stateful git orchestration of `pullLatestChanges` is modelled by threading
an explicit environment of git-command outcomes together with a trace of the
attempted commands.
-/

/-- JavaScript strings are modelled as lists of characters. -/
abbrev Str := List Char

namespace RepoAnalyzer

/-- Whitespace as recognised by JavaScript (`\s`, `String.prototype.trim`):
space, tab, newline, carriage return, vertical tab, form feed, NBSP.
(The remaining Unicode space code points never occur in any input
considered here.) -/
def jsWs (c : Char) : Bool :=
  c == ' ' || c == '\t' || c == '\n' || c == '\r' || c == '\x0b' || c == '\x0c' ||
    c == ' '

/-- Characters matched by `.` in a JavaScript regex without the `s` flag:
everything except line terminators. -/
def dotChar (c : Char) : Bool :=
  !(c == '\n' || c == '\r' || c == ' ' || c == ' ')

/-- Prefix test on character lists (`needle` is a prefix of `hay`). -/
def isPre : Str → Str → Bool
  | [], _ => true
  | _ :: _, [] => false
  | a :: as, b :: bs => a == b && isPre as bs

/-- Substring test: JavaScript `hay.includes(needle)`. -/
def containsSub (needle : Str) : Str → Bool
  | [] => isPre needle []
  | c :: t => isPre needle (c :: t) || containsSub needle t

/-- JavaScript `s.split('\n')`. -/
def splitNl : Str → List Str
  | [] => [[]]
  | '\n' :: r => [] :: splitNl r
  | c :: r =>
    match splitNl r with
    | [] => [[c]]
    | t :: ts => (c :: t) :: ts

/-- Inverse of `splitNl`, used only in proofs. -/
def joinNl : List Str → Str
  | [] => []
  | [l] => l
  | l :: ls => l ++ '\n' :: joinNl ls

/-- JavaScript `s.split('@@')` (the hunk-marker split in `parseDiff`). -/
def splitAtAt : Str → List Str
  | '@' :: '@' :: r => [] :: splitAtAt r
  | c :: r =>
    match splitAtAt r with
    | [] => [[c]]
    | t :: ts => (c :: t) :: ts
  | [] => [[]]

/-- JavaScript `s.split('diff --git')` (the per-file split in `parseDiff`). -/
def splitDiffGit : Str → List Str
  | 'd' :: 'i' :: 'f' :: 'f' :: ' ' :: '-' :: '-' :: 'g' :: 'i' :: 't' :: r =>
    [] :: splitDiffGit r
  | c :: r =>
    match splitDiffGit r with
    | [] => [[c]]
    | t :: ts => (c :: t) :: ts
  | [] => [[]]

/-- JavaScript `s.trim()`. -/
def trimStr (s : Str) : Str :=
  ((s.dropWhile jsWs).reverse.dropWhile jsWs).reverse

/-! ## The diff parser (`parseDiff`, `extension.ts` 489-555) -/

/-- Change kinds of `parseDiff` (`extension.ts`, interface `Change`). -/
inductive ChangeType
  | add
  | remove
  | modify
deriving DecidableEq, Repr

/-- One change record emitted by `parseDiff` (`extension.ts`, interface `Change`). -/
structure Change where
  type : ChangeType
  lineNumber : Nat
  content : Str
  suggestion : Str
deriving DecidableEq, Repr

/-- Per-file result of `parseDiff` (`extension.ts`, interface `CodeDifference`). -/
structure CodeDifference where
  file : Str
  changes : List Change
deriving DecidableEq, Repr

/-- Lazy capture of `/a\/(.+?) b\//` once `a/` has been consumed: collect
non-terminator characters (the reversed accumulator `acc`) until ` b/`
follows, requiring at least one captured character. -/
def fileCapture : Str → Str → Option Str
  | acc, c :: r =>
    if acc ≠ [] && isPre [' ', 'b', '/'] (c :: r) then some acc.reverse
    else if dotChar c then fileCapture (c :: acc) r
    else none
  | _, [] => none

/-- Attempt of `/a\/(.+?) b\//` at a position whose character `a` has been
consumed: the next character must be `/`, then the lazy capture runs. -/
def tryFileAt : Str → Option Str
  | '/' :: r => fileCapture [] r
  | _ => none

/-- JavaScript `segment.match(/a\/(.+?) b\//)`, returning the first capture
group of the leftmost match. -/
def matchFilePath : Str → Option Str
  | [] => none
  | c :: rest =>
    match (if c = 'a' then tryFileAt rest else none) with
    | some cap => some cap
    | none => matchFilePath rest

/-- Numeric value of a digit string (`parseInt` on the capture). -/
def natOfDigits (s : Str) : Nat :=
  s.foldl (fun n c => 10 * n + (c.toNat - '0'.toNat)) 0

/-- Attempt of the regex `-(\d+),?\d* \+(\d+),?\d*` at a position whose `-` has been
consumed; returns the second capture group (the new-side start line).
Backtracking of the quantifiers reduces to: a nonempty digit run, optionally
a comma and a further digit run, then a space, `+`, and the captured
nonempty digit run. -/
def hunkNums (rest : Str) : Option Nat :=
  let d1 := rest.takeWhile Char.isDigit
  let r1 := rest.dropWhile Char.isDigit
  if d1 = [] then none
  else
    let r2 := match r1 with
      | ',' :: rr => rr.dropWhile Char.isDigit
      | _ => r1
    match r2 with
    | ' ' :: '+' :: r3 =>
      let d2 := r3.takeWhile Char.isDigit
      if d2 = [] then none else some (natOfDigits d2)
    | _ => none

/-- JavaScript `hunkHeader.match` on the regex `-(\d+),?\d* \+(\d+),?\d*` followed by
`parseInt(lineMatch[2])`: the new-side start line of the leftmost match. -/
def findHunkStart : Str → Option Nat
  | [] => none
  | c :: rest =>
    match (if c = '-' then hunkNums rest else none) with
    | some n => some n
    | none => findHunkStart rest

/-- Inner loop of `parseDiff` over the lines of one hunk content
(`extension.ts` 521-543): empty lines are skipped, `+`/`-` lines become
change records, the running counter advances on every non-removal line.
The `suggestion` field is produced in the source by
`codeOptimizer.analyzePatch`, abstracted here as the parameter `sugg`. -/
def processHunkLines (sugg : Str → Str) : Nat → List Str → List Change
  | _, [] => []
  | cur, [] :: ls => processHunkLines sugg cur ls
  | cur, ('+' :: content) :: ls =>
    ⟨.add, cur, content, sugg content⟩ :: processHunkLines sugg (cur + 1) ls
  | cur, ('-' :: content) :: ls =>
    ⟨.remove, cur, content, sugg content⟩ :: processHunkLines sugg cur ls
  | cur, (_ :: _) :: ls => processHunkLines sugg (cur + 1) ls

/-- Pairing `hunks[i]`/`hunks[i+1]` of the `i += 2` loop of `parseDiff`;
a trailing header without content (`hunks[i+1] === undefined`) is dropped. -/
def pairHunks : List Str → List (Str × Str)
  | h :: c :: rest => (h, c) :: pairHunks rest
  | _ => []

/-- Changes contributed by one header/content pair: empty header or content
is skipped (falsy check in the source), as is a header without a parseable
`-old,+new` marker. -/
def hunkChangesOf (sugg : Str → Str) (p : Str × Str) : List Change :=
  if p.1 = [] ∨ p.2 = [] then []
  else
    match findHunkStart p.1 with
    | none => []
    | some startLine => processHunkLines sugg startLine (splitNl p.2)

/-- All changes of one file segment (`parseDiff` hunk loop). -/
def segmentChanges (sugg : Str → Str) (seg : Str) : List Change :=
  ((pairHunks ((splitAtAt seg).drop 1)).map (hunkChangesOf sugg)).flatten

/-- Handling of one file segment of `parseDiff`: whitespace-only segments and
segments without an `a/<path> b/` header are skipped, and a file producing
zero changes is omitted.  The source stores `path.relative(repoPath, filePath)`;
that path normalisation is abstracted as the parameter `rel`. -/
def parseSegment (sugg rel : Str → Str) (seg : Str) : Option CodeDifference :=
  if seg.all jsWs then none
  else
    match matchFilePath seg with
    | none => none
    | some fp =>
      let changes := segmentChanges sugg seg
      if changes = [] then none else some ⟨rel fp, changes⟩

/-- The diff parser `parseDiff` (`extension.ts` 489-555). -/
def parseDiff (sugg rel : Str → Str) (diff : Str) : List CodeDifference :=
  (splitDiffGit diff).filterMap (parseSegment sugg rel)

/-! ## The repository-URL validator (`extension.ts` 101-112) -/

/-- The `validateInput` callback of the URL input box: returns an error
message, or `none` when the input is accepted. -/
def validateInput (input : Str) : Option String :=
  if input = [] then some "Repository URL is required"
  else if !isPre ("https://".data) input then some "URL must start with https://"
  else if !containsSub ("github.com".data) input && !containsSub ("gitlab.com".data) input then
    some "Only GitHub and GitLab repositories are supported"
  else none

/-! ## The architecture analyzer (`architectureAnalyzer.ts`) -/

/-- The module dependency map built by `analyzeDependencies`: an association
list of module names and their imported modules.  It models the JavaScript
`Map<string, Set<string>>` (keys of a `Map` are unique; a value list stands
for the stored `Set`). -/
abbrev DepGraph := List (String × List String)

/-- Keys of the dependency map, in `Map` iteration order. -/
def keys (g : DepGraph) : List String :=
  g.map Prod.fst

/-- JavaScript `dependencies.get(module) || new Set()`. -/
def depsOf (g : DepGraph) (m : String) : List String :=
  match g.find? (fun p => p.1 == m) with
  | some p => p.2
  | none => []

/-- Recursive cycle check `ArchitectureAnalyzer.isCircular`
(`architectureAnalyzer.ts` 218-237): the depth-first walk from `module`
returns `true` when it meets the `visited` path again.  Each recursive call
receives a copy of the extended visited set (`new Set(visited)` in the
source), modelled by the persistent list `module :: visited`.  Termination:
the set of map keys outside `visited` shrinks on every recursive call. -/
def isCircular (g : DepGraph) (module : String) (visited : List String) : Bool :=
  if h : module ∈ visited then true
  else
    (depsOf g module).attach.any fun d => isCircular g d.1 (module :: visited)
termination_by ((keys g).toFinset \ visited.toFinset).card
decreasing_by
  by_cases hk : module ∈ keys g
  · have hmem : module ∈ (keys g).toFinset \ visited.toFinset := by
      simp only [Finset.mem_sdiff, List.mem_toFinset]
      exact ⟨hk, h⟩
    have hins : (keys g).toFinset \ (module :: visited).toFinset =
        ((keys g).toFinset \ visited.toFinset).erase module := by
      simp only [List.toFinset_cons, Finset.sdiff_insert]
    simp only [hins]
    exact Finset.card_erase_lt_of_mem hmem
  · have hnil : depsOf g module = [] := by
      unfold depsOf
      rw [List.find?_eq_none.mpr]
      intro p hp hbeq
      exact hk (List.mem_map.mpr ⟨p, hp, by simpa using hbeq⟩)
    exact absurd d.2 (by simp [hnil])

/-- `ArchitectureAnalyzer.findCircularDependencies`
(`architectureAnalyzer.ts` 204-216): collects the modules of the map whose
depth-first walk starting from an empty visited set reports a cycle. -/
def findCircularDependencies (g : DepGraph) : List String :=
  (keys g).filter (fun m => isCircular g m [])

/-- `ArchitectureAnalyzer.findUsages` (`architectureAnalyzer.ts` 239-252):
the modules whose dependency set contains `module`. -/
def findUsages (module : String) (g : DepGraph) : List String :=
  (g.filter (fun p => p.2.contains module)).map Prod.fst

/-- Record of the dependency report (`DependencyInfo` interface). -/
structure DependencyInfo where
  module : String
  usedBy : List String
  dependencies : List String
  circular : Bool
deriving DecidableEq, Repr

/-- Dependency-report assembly of `ArchitectureAnalyzer.analyzeDependencies`
(`architectureAnalyzer.ts` 179-189): one record per map entry. -/
def analyzeDependencies (g : DepGraph) : List DependencyInfo :=
  g.map fun p =>
    { module := p.1
      usedBy := findUsages p.1 g
      dependencies := p.2
      circular := (findCircularDependencies g).contains p.1 }

/-! ## The security analyzer (`SecurityAnalyzer.checkSecrets`,
bundled in `repoManager.ts` 622-651) -/

/-- Severity levels of `SecurityIssue`. -/
inductive Severity
  | low
  | medium
  | high
  | critical
deriving DecidableEq, Repr

/-- A finding of the security analyzer (`SecurityIssue` interface). -/
structure SecurityIssue where
  type : String
  severity : Severity
  message : String
  line : Option Nat
  suggestion : String
deriving DecidableEq, Repr

/-- Keyword alternatives of the first secret pattern,
`(api[_-]key|apikey|secret|password|credentials)`, lowercased (`i` flag). -/
def kwSecret1 : List Str :=
  ["api_key".data, "api-key".data, "apikey".data, "secret".data,
    "password".data, "credentials".data]

/-- Keyword alternatives of the second secret pattern, `(aws|firebase|oauth)`. -/
def kwSecret2 : List Str :=
  ["aws".data, "firebase".data, "oauth".data]

/-- Keyword alternatives of the third secret pattern,
`(private[_-]key|ssh[_-]key)`. -/
def kwSecret3 : List Str :=
  ["private_key".data, "private-key".data, "ssh_key".data, "ssh-key".data]

/-- Case-insensitive prefix test (the `i` flag: the keyword is lowercase and
the subject is lowercased before comparison). -/
def lcPre (kw l : Str) : Bool :=
  isPre kw (l.map Char.toLower)

/-- Tail `[^'"]*['"]` of the secret regexes: greedy non-quote run, then a
quote; succeeds exactly when a further quote character follows, returning
the suffix after it. -/
def findQuote : Str → Option Str
  | [] => none
  | c :: r => if c = '\'' ∨ c = '"' then some r else findQuote r

/-- Part `\s*['"][^'"]*['"]` of the secret regexes, applied after the `=` or
`:`: the greedy whitespace run must be followed directly by a quote, then
`findQuote` closes the quoted string. -/
def afterAssign (l : Str) : Option Str :=
  match l.dropWhile jsWs with
  | c :: r => if c = '\'' ∨ c = '"' then findQuote r else none
  | [] => none

/-- Part `.*?[=:]\s*['"][^'"]*['"]` of the secret regexes: the lazy gap scans
forward (never across a line terminator) for an `=` or `:` whose continuation
completes, backtracking by extending the gap otherwise. -/
def findAssign : Str → Option Str
  | [] => none
  | c :: r =>
    if c = '=' ∨ c = ':' then
      match afterAssign r with
      | some rest => some rest
      | none => findAssign r
    else if dotChar c then findAssign r
    else none

/-- Attempt of one keyword alternative at the current position: the keyword
must be a case-insensitive prefix, then the assignment tail must complete. -/
def matchKeywordAt (kw l : Str) : Option Str :=
  if lcPre kw l then findAssign (l.drop kw.length) else none

/-- Alternation at the current position: alternatives are tried from left to
right, each with the full continuation. -/
def tryKeywordsAt (kws : List Str) (l : Str) : Option Str :=
  match kws with
  | [] => none
  | kw :: rest =>
    match matchKeywordAt kw l with
    | some r => some r
    | none => tryKeywordsAt rest l

/-- Leftmost-match scan of a secret regex: positions are tried from left to
right; returns the suffix after the first match. -/
def scanSecret (kws : List Str) : Str → Option Str
  | [] => none
  | c :: r =>
    match tryKeywordsAt kws (c :: r) with
    | some rest => some rest
    | none => scanSecret kws r

/-- JavaScript `pattern.test(line)` on a regex with the `g` flag: matching
starts at `lastIndex`; on success `lastIndex` moves past the match, on
failure it resets to `0`.  Returns the outcome and the new `lastIndex`. -/
def regexTestG (kws : List Str) (line : Str) (lastIndex : Nat) : Bool × Nat :=
  match scanSecret kws (line.drop lastIndex) with
  | some rest => (true, line.length - rest.length)
  | none => (false, 0)

/-- Finding pushed by `checkSecrets` for pattern `i` on line `n` (1-based). -/
def secretIssue (msg : String) (n : Nat) : SecurityIssue :=
  { type := "secret-exposure"
    severity := .critical
    message := msg
    line := some n
    suggestion := "Move secrets to environment variables or use a secure secret management service" }

/-- Messages of the three secret patterns, in source order. -/
def secretMsg1 : String := "Potential hardcoded secret detected"

/-- Message of the second secret pattern. -/
def secretMsg2 : String := "Cloud service credentials potentially exposed"

/-- Message of the third secret pattern. -/
def secretMsg3 : String := "Private key potentially exposed"

/-- Line loop of `checkSecrets`: the three regex objects are shared across
lines, so each carries its `lastIndex` through the fold (`g`-flag
statefulness of `pattern.test`). -/
def checkSecretsAux : Nat → Nat × Nat × Nat → List Str → List SecurityIssue
  | _, _, [] => []
  | idx, (i1, i2, i3), l :: ls =>
    let t1 := regexTestG kwSecret1 l i1
    let t2 := regexTestG kwSecret2 l i2
    let t3 := regexTestG kwSecret3 l i3
    ((if t1.1 then [secretIssue secretMsg1 (idx + 1)] else []) ++
      (if t2.1 then [secretIssue secretMsg2 (idx + 1)] else []) ++
      (if t3.1 then [secretIssue secretMsg3 (idx + 1)] else [])) ++
      checkSecretsAux (idx + 1) (t1.2, t2.2, t3.2) ls

/-- `SecurityAnalyzer.checkSecrets` (`repoManager.ts` 622-651): the three
secret patterns are tested per line; each match yields a critical
`secret-exposure` finding for that line. -/
def checkSecrets (content : Str) : List SecurityIssue :=
  checkSecretsAux 0 (0, 0, 0) (splitNl content)

/-! ## The code optimizer (`CodeOptimizer.analyzeComplexity`,
`codeOptimizer.ts` 41-91) -/

/-- Impact levels of `OptimizationSuggestion`. -/
inductive Impact
  | low
  | medium
  | high
deriving DecidableEq, Repr

/-- A finding of the code optimizer (`OptimizationSuggestion` interface). -/
structure OptSuggestion where
  type : String
  message : String
  line : Option Nat
  suggestion : String
  impact : Impact
deriving DecidableEq, Repr

/-- JavaScript `\w`: ASCII letters, digits and underscore. -/
def isWordChar (c : Char) : Bool :=
  c.isAlphanum || c == '_'

/-- Alternatives `\w+\s*=\s*function` and `\w+\s*=\s*async function` of the
function-detection regex: a nonempty word run, optional whitespace, `=`,
optional whitespace, then the `function` keyword. -/
def assignFunction (l : Str) : Bool :=
  let w := l.takeWhile isWordChar
  let r := l.dropWhile isWordChar
  if w = [] then false
  else
    match r.dropWhile jsWs with
    | '=' :: r2 =>
      let r3 := r2.dropWhile jsWs
      isPre ("function".data) r3 || isPre ("async function".data) r3
    | _ => false

/-- The function-detection regex of `analyzeComplexity`,
`^(function|async function|\w+\s*=\s*function|\w+\s*=\s*async function)`,
as a prefix test on the trimmed line. -/
def isFunctionStart (l : Str) : Bool :=
  isPre ("function".data) l || isPre ("async function".data) l || assignFunction l

/-- Opening and closing brace characters (written via `\x` escapes). -/
def braceOpen : Char := '\x7b'

/-- The closing brace character. -/
def braceClose : Char := '\x7d'

/-- Message of the long-function suggestion (template literal with the
function line count). -/
def longFunctionMessage (n : Nat) : String :=
  "Long function detected (" ++ toString n ++ " lines)"

/-- Message of the excessive-nesting suggestion (template literal with the
maximal nesting level). -/
def highNestingMessage (n : Int) : String :=
  "High nesting level detected (" ++ toString n ++ " levels)"

/-- Suggestion text attached to long-function findings. -/
def longFunctionAdvice : String :=
  "Consider breaking this function into smaller, more focused functions"

/-- Suggestion text attached to excessive-nesting findings. -/
def nestingAdvice : String :=
  "Consider refactoring to reduce nesting using early returns or separate functions"

/-- Main loop of `analyzeComplexity` (`codeOptimizer.ts` 50-80): per line,
trim, detect function heads, bump the nesting level once when the line
contains an opening brace and drop it once when it contains a closing brace,
emit a long-function suggestion when a function body closes at level 0 with
more than 30 counted lines, then record the running maximum of the nesting
level and count the current function's lines.  The JavaScript sentinel
`functionStart === -1` is modelled by `none`.  Returns the pushed
suggestions and the final `maxNestingLevel`.  `complexityStep` is the body
of one iteration: it yields the pushed suggestions, the updated nesting
level and the updated `functionStart`. -/
def complexityStep (i : Nat) (fs : Option Nat) (fl : Nat) (nl : Int) (l : Str) :
    List OptSuggestion × Int × Option Nat :=
  let fs1 := if isFunctionStart l then some i else fs
  let fl1 := if isFunctionStart l then 0 else fl
  let nl1 := if l.contains braceOpen then nl + 1 else nl
  if l.contains braceClose then
    let nl2 := nl1 - 1
    if fs1.isSome ∧ nl2 = 0 then
      ((if fl1 > 30 then
          [⟨"complexity", longFunctionMessage fl1, fs1, longFunctionAdvice, .medium⟩]
        else []), nl2, (none : Option Nat))
    else ([], nl2, fs1)
  else ([], nl1, fs1)

/-- The line loop of `analyzeComplexity`, folding `complexityStep` while
tracking the running maximum nesting level and the function line counter. -/
def complexityLoop : Nat → Option Nat → Nat → Int → Int → List Str → List OptSuggestion × Int
  | _, _, _, _, mx, [] => ([], mx)
  | i, fs, fl, nl, mx, l0 :: ls =>
    let l := trimStr l0
    let st := complexityStep i fs fl nl l
    let fl1 := if isFunctionStart l then 0 else fl
    let mx2 := max mx st.2.1
    let fl2 := if st.2.2.isSome then fl1 + 1 else fl1
    let rest := complexityLoop (i + 1) st.2.2 fl2 st.2.1 mx2 ls
    (st.1 ++ rest.1, rest.2)

/-- `CodeOptimizer.analyzeComplexity` (`codeOptimizer.ts` 41-91): the line
loop followed by the final excessive-nesting check `maxNestingLevel > 4`. -/
def analyzeComplexity (content : Str) : List OptSuggestion :=
  let r := complexityLoop 0 none 0 0 0 (splitNl content)
  r.1 ++
    (if r.2 > 4 then
      [⟨"complexity", highNestingMessage r.2, none, nestingAdvice, .high⟩]
    else [])

/-- Character-level brace nesting: running depth and maximum over the whole
text, `braceOpen` deepening and `braceClose` closing.  This is the
spec-side notion of "brace-nesting depth" used to state the
nesting-depth claims. -/
def braceDepthMax : Int → Int → Str → Int
  | _, m, [] => m
  | d, m, c :: r =>
    if c = braceOpen then braceDepthMax (d + 1) (max m (d + 1)) r
    else if c = braceClose then braceDepthMax (d - 1) m r
    else braceDepthMax d m r

/-- Maximal brace-nesting depth of a text, counted per character. -/
def charMaxDepth (content : Str) : Int :=
  braceDepthMax 0 0 content

/-- Brace characters of a line. -/
def isBrace (c : Char) : Bool :=
  c == braceOpen || c == braceClose

/-- Texts writing braces one per line (at most one brace character on any
line): on those, per-line brace counting agrees with per-character
counting. -/
def OneBracePerLine (content : Str) : Prop :=
  ∀ l ∈ splitNl content, (l.filter isBrace).length ≤ 1

/-- The excessive-nesting suggestions among the optimizer's findings. -/
def IsNestingSuggestion (s : OptSuggestion) : Prop :=
  s.impact = .high ∧ ∃ n, s.message = highNestingMessage n

instance (content : Str) : Decidable (OneBracePerLine content) :=
  inferInstanceAs
    (Decidable (∀ l ∈ splitNl content, (l.filter isBrace).length ≤ 1))

/-! ## The repository synchronizer (`RepoManager.pullLatestChanges`,
`repoManager.ts` 384-497)

The git subprocess is an external collaborator; it is modelled by an
environment `GitEnv` fixing the outcome of each git command the operation
may issue, and the embedding threads a trace of the commands attempted. -/

/-- Git commands attempted by `pullLatestChanges`, in source order. -/
inductive GitCall
  | status0
  | revparse0
  | branchInfo
  | fetchRemote
  | stash
  | configPull
  | pull
  | fetchBranch
  | checkoutTemp
  | resetHard
  | checkoutOrig
  | mergeTemp
  | deleteTemp
  | mergeAbort
  | stashPop
  | status1
  | revparse1
  | logSummary
deriving DecidableEq, Repr

/-- The parts of a git `StatusResult` that `pullLatestChanges` consults. -/
structure StatusF where
  modified : List String
  not_added : List String
deriving DecidableEq, Repr

instance exceptDecEq {ε α : Type} [DecidableEq ε] [DecidableEq α] :
    DecidableEq (Except ε α)
  | .error e, .error f =>
    if h : e = f then isTrue (by rw [h]) else isFalse (by simp [h])
  | .error _, .ok _ => isFalse (fun hc => Except.noConfusion hc)
  | .ok _, .error _ => isFalse (fun hc => Except.noConfusion hc)
  | .ok a, .ok b =>
    if h : a = b then isTrue (by rw [h]) else isFalse (by simp [h])

/-- Outcomes of the git commands issued by `pullLatestChanges`. -/
structure GitEnv where
  status0 : Except String StatusF
  revparse0 : Except String String
  branchInfo : Except String String
  fetchRemote : Except String Unit
  stash : Except String Unit
  configPull : Except String Unit
  pull : Except String String
  fetchBranch : Except String Unit
  checkoutTemp : Except String Unit
  resetHard : Except String Unit
  checkoutOrig : Except String Unit
  mergeTemp : Except String Unit
  deleteTemp : Except String Unit
  mergeAbort : Except String Unit
  stashPop : Except String Unit
  status1 : Except String StatusF
  revparse1 : Except String String
  logSummary : Except String Unit
deriving DecidableEq, Repr

/-- Condition under which uncommitted changes are stashed
(`initialStatus.modified.length > 0 || initialStatus.not_added.length > 0`). -/
def needsStash (s : StatusF) : Bool :=
  !s.modified.isEmpty || !s.not_added.isEmpty

/-- Success test on a command outcome. -/
def isOkE {α : Type} : Except String α → Bool
  | .ok _ => true
  | .error _ => false

/-- The error raised when the divergent-branch recovery fails
(`repoManager.ts` 454). -/
def conflictMsg : String :=
  "Could not safely merge changes. Please resolve conflicts manually."

/-- The divergent-branch recovery sequence (`repoManager.ts` 426-445):
fetch the branch, create a temporary branch, hard-reset it to the remote
tracking branch, return to the original branch and merge, delete the
temporary branch.  Stops at the first failing command. -/
def recoverySeq (env : GitEnv) (tr : List GitCall) : Except String Unit × List GitCall :=
  let tr1 := tr ++ [GitCall.fetchBranch]
  match env.fetchBranch with
  | .error e => (.error e, tr1)
  | .ok _ =>
    let tr2 := tr1 ++ [GitCall.checkoutTemp]
    match env.checkoutTemp with
    | .error e => (.error e, tr2)
    | .ok _ =>
      let tr3 := tr2 ++ [GitCall.resetHard]
      match env.resetHard with
      | .error e => (.error e, tr3)
      | .ok _ =>
        let tr4 := tr3 ++ [GitCall.checkoutOrig]
        match env.checkoutOrig with
        | .error e => (.error e, tr4)
        | .ok _ =>
          let tr5 := tr4 ++ [GitCall.mergeTemp]
          match env.mergeTemp with
          | .error e => (.error e, tr5)
          | .ok _ =>
            let tr6 := tr5 ++ [GitCall.deleteTemp]
            match env.deleteTemp with
            | .error e => (.error e, tr6)
            | .ok _ => (.ok (), tr6)

/-- The catch handler around the plain pull (`repoManager.ts` 422-456): run
the recovery sequence; when it fails too, attempt `merge --abort` (its own
failure is ignored) and raise the manual-resolution error. -/
def recoveryCatch (env : GitEnv) (tr : List GitCall) : Except String Unit × List GitCall :=
  match recoverySeq env tr with
  | (.ok _, tr') => (.ok (), tr')
  | (.error _, tr') => (.error conflictMsg, tr' ++ [GitCall.mergeAbort])

/-- The plain pull attempt (`repoManager.ts` 416-421): set
`pull.rebase false`, then pull; any failure enters the recovery handler. -/
def pullPhase (env : GitEnv) (tr : List GitCall) : Except String Unit × List GitCall :=
  let tr1 := tr ++ [GitCall.configPull]
  match env.configPull with
  | .error _ => recoveryCatch env tr1
  | .ok _ =>
    let tr2 := tr1 ++ [GitCall.pull]
    match env.pull with
    | .error _ => recoveryCatch env tr2
    | .ok _ => (.ok (), tr2)

/-- Steps after a successful pull or recovery (`repoManager.ts` 458-490):
best-effort stash pop (failure logged, not fatal), final status, final HEAD
and, when HEAD moved, the commit-log summary. -/
def postPhase (env : GitEnv) (s0 : StatusF) (head0 : String) (tr : List GitCall) :
    Except String Unit × List GitCall :=
  let trA := if needsStash s0 then tr ++ [GitCall.stashPop] else tr
  let trB := trA ++ [GitCall.status1]
  match env.status1 with
  | .error e => (.error e, trB)
  | .ok _ =>
    let trC := trB ++ [GitCall.revparse1]
    match env.revparse1 with
    | .error e => (.error e, trC)
    | .ok head1 =>
      if head0 ≠ head1 then
        let trD := trC ++ [GitCall.logSummary]
        match env.logSummary with
        | .error e => (.error e, trD)
        | .ok _ => (.ok (), trD)
      else (.ok (), trC)

/-- Body of the outer `try` of `pullLatestChanges` (`repoManager.ts`
388-490): initial status, HEAD, branch lookup, fetch, conditional stash,
then the pull attempt with recovery, then the post phase. -/
def mainBody (env : GitEnv) : Except String Unit × List GitCall :=
  let tr0 := [GitCall.status0]
  match env.status0 with
  | .error e => (.error e, tr0)
  | .ok s0 =>
    let tr1 := tr0 ++ [GitCall.revparse0]
    match env.revparse0 with
    | .error e => (.error e, tr1)
    | .ok head0 =>
      let tr2 := tr1 ++ [GitCall.branchInfo]
      match env.branchInfo with
      | .error e => (.error e, tr2)
      | .ok _ =>
        let tr3 := tr2 ++ [GitCall.fetchRemote]
        match env.fetchRemote with
        | .error e => (.error e, tr3)
        | .ok _ =>
          let tr4 := if needsStash s0 then tr3 ++ [GitCall.stash] else tr3
          match (if needsStash s0 then env.stash else .ok ()) with
          | .error e => (.error e, tr4)
          | .ok _ =>
            match pullPhase env tr4 with
            | (.error e, tr') => (.error e, tr')
            | (.ok _, tr') => postPhase env s0 head0 tr'

/-- `RepoManager.pullLatestChanges` (`repoManager.ts` 384-497): the outer
catch wraps any raised error with the `Failed to pull latest changes:`
context. -/
def pullLatestChanges (env : GitEnv) : Except String Unit × List GitCall :=
  match mainBody env with
  | (.ok _, tr) => (.ok (), tr)
  | (.error e, tr) => (.error ("Failed to pull latest changes: " ++ e), tr)

/-- Failure of the recovery sequence: some of its six commands fails. -/
def RecoveryFails (env : GitEnv) : Prop :=
  ¬(isOkE env.fetchBranch = true ∧ isOkE env.checkoutTemp = true ∧
    isOkE env.resetHard = true ∧ isOkE env.checkoutOrig = true ∧
    isOkE env.mergeTemp = true ∧ isOkE env.deleteTemp = true)

/-! ## Per-file analysis error containment (`analyzeFile` inside `analyze`,
`extension.ts` 397-430)

The security pass, the optimization pass and the file-access check are
external effects; a `FileSpec` fixes their outcome for one file. -/

/-- Outcomes of the three per-file effects that `analyzeFile` awaits. -/
structure FileSpec where
  path : String
  access : Except String Unit
  security : Except String (List SecurityIssue)
  optimization : Except String (List OptSuggestion)

/-- One iteration of `analyzeFile` (`extension.ts` 397-430): an inaccessible
file contributes nothing; each pass contributes its findings only when it
succeeds with a nonempty list, and a failing pass is caught and logged
without affecting the other pass. -/
def analyzeFileStep (f : FileSpec) :
    List (String × List SecurityIssue) × List (String × List OptSuggestion) :=
  match f.access with
  | .error _ => ([], [])
  | .ok _ =>
    ((match f.security with
      | .error _ => []
      | .ok issues => if issues.length > 0 then [(f.path, issues)] else []),
      (match f.optimization with
      | .error _ => []
      | .ok suggs => if suggs.length > 0 then [(f.path, suggs)] else []))

/-- The per-file loop of `analyze` (`extension.ts` 445-448 and 456-462):
files are processed in order, accumulating the security and optimization
result lists. -/
def runAnalysis : List FileSpec →
    List (String × List SecurityIssue) × List (String × List OptSuggestion)
  | [] => ([], [])
  | f :: fs =>
    let h := analyzeFileStep f
    let r := runAnalysis fs
    (h.1 ++ r.1, h.2 ++ r.2)

/-- The import-step relation of the dependency map: `a` imports `b`. -/
def Imports (g : DepGraph) (a b : String) : Prop :=
  b ∈ depsOf g a

/-- A dependency map is acyclic when no module transitively imports itself. -/
def Acyclic (g : DepGraph) : Prop :=
  ∀ m, ¬ Relation.TransGen (Imports g) m m

instance (g : DepGraph) (a b : String) : Decidable (Imports g a b) :=
  inferInstanceAs (Decidable (b ∈ depsOf g a))

instance (env : GitEnv) : Decidable (RecoveryFails env) :=
  inferInstanceAs (Decidable ¬(isOkE env.fetchBranch = true ∧
    isOkE env.checkoutTemp = true ∧ isOkE env.resetHard = true ∧
    isOkE env.checkoutOrig = true ∧ isOkE env.mergeTemp = true ∧
    isOkE env.deleteTemp = true))

/-- A two-module cycle. -/
def gCyc : DepGraph := [("A", ["B"]), ("B", ["A"])]

/-- An acyclic two-module map. -/
def gAcy : DepGraph := [("A", ["B"]), ("B", [])]

/-- The continuation that `mainBody` applies to the outcome of the pull
phase once the plain pull has failed: the recovery handler followed, on
success, by the post phase. -/
def recoveryCatchStep (env : GitEnv) (s0 : StatusF) (h0 : String)
    (tr : List GitCall) : Except String Unit × List GitCall :=
  match recoveryCatch env tr with
  | (.error e, tr') => (.error e, tr')
  | (.ok _, tr') => postPhase env s0 h0 tr'

/-- A git environment where the plain pull fails with divergent branches and
the recovery's hard reset then fails as well. -/
def envW : GitEnv :=
  ⟨.ok ⟨[], []⟩, .ok "aaaa", .ok "main", .ok (), .ok (), .ok (),
    .error "divergent branches", .ok (), .ok (), .error "conflict",
    .ok (), .ok (), .ok (), .ok (), .ok (), .ok ⟨[], []⟩, .ok "aaaa", .ok ()⟩

/-- The line of the secret-scanning claims. -/
def apiKeyLine : Str := "apiKey = \"abc123\"".data

/-- An input whose second line is the `apiKey` line, while its first line
already matches the first secret pattern (and moves its `lastIndex`). -/
def secretCounter : Str := "password = \"longenough\"\napiKey = \"abc123\"".data

/-- The nesting-level component of `complexityLoop` in isolation: per line,
one increment when the trimmed line contains an opening brace, one decrement
when it contains a closing brace, then the running maximum. -/
def lineNest : Int → Int → List Str → Int
  | _, mx, [] => mx
  | nl, mx, l0 :: ls =>
    let l := trimStr l0
    let nl1 := if l.contains braceOpen then nl + 1 else nl
    let nl2 := if l.contains braceClose then nl1 - 1 else nl1
    lineNest nl2 (max mx nl2) ls

/-- Per-line effect of the nesting counter, phrased on the raw line (braces
survive trimming). -/
def lineStepNl (d : Int) (l0 : Str) : Int :=
  let nl1 := if l0.contains braceOpen then d + 1 else d
  if l0.contains braceClose then nl1 - 1 else nl1

/-- Character-level brace walk carrying both the running depth and the
running maximum (the pair form of `braceDepthMax`). -/
def braceStep : Int × Int → Str → Int × Int
  | p, [] => p
  | (d, m), c :: r =>
    if c = braceOpen then braceStep (d + 1, max m (d + 1)) r
    else if c = braceClose then braceStep (d - 1, m) r
    else braceStep (d, m) r

/-- A one-line function with five nested brace levels. -/
def nestOneLine : Str :=
  "function f() \x7b if (a) \x7b if (b) \x7b if (c) \x7b if (d) \x7b x \x7d \x7d \x7d \x7d \x7d".data

/-- A five-level function written with one brace per line. -/
def nestFiveLines : Str :=
  "function f() \x7b\nif (a) \x7b\nif (b) \x7b\nif (c) \x7b\nif (d) \x7b\nx\n\x7d\n\x7d\n\x7d\n\x7d\n\x7d".data

/-- A three-level function written with one brace per line. -/
def nestThreeLines : Str :=
  "function f() \x7b\nif (a) \x7b\nif (b) \x7b\nx\n\x7d\n\x7d\n\x7d".data

/-- Lines of a hunk that are additions (leading `+`). -/
def isAddLine : Str → Bool
  | '+' :: _ => true
  | _ => false

/-- Lines of a hunk on which the running line counter advances: the nonempty
lines that are not removals. -/
def isNonRemoval : Str → Bool
  | [] => false
  | c :: _ => c != '-'

/-- Number of non-removal lines in a list of hunk lines. -/
def nonRemovalCount (lines : List Str) : Nat :=
  (lines.filter isNonRemoval).length

/-- Line numbers attached to the additions of a change list. -/
def addLineNumbers (cs : List Change) : List Nat :=
  cs.filterMap fun c => if c.type = .add then some c.lineNumber else none

/-- Modelled from the spec: the expected line numbers of the additions of
one hunk — for each addition, "the hunk's declared starting line plus the
count of preceding non-removal lines". -/
def specAddNumbers (startLine : Nat) (lines : List Str) : List Nat :=
  (List.range lines.length).filterMap fun j =>
    if isAddLine (lines.getD j []) then
      some (startLine + nonRemovalCount (lines.take j))
    else none

/-- Extraction of one hunk's start line and split content lines, when the
header/content pair survives the falsy checks and has a parseable marker. -/
def hunkSpecFn (p : Str × Str) : Option (Nat × List Str) :=
  if p.1 = [] ∨ p.2 = [] then none
  else
    match findHunkStart p.1 with
    | none => none
    | some n => some (n, splitNl p.2)

/-- The parsed hunks of one file segment. -/
def hunkSpecs (seg : Str) : List (Nat × List Str) :=
  (pairHunks ((splitAtAt seg).drop 1)).filterMap hunkSpecFn

/-- A well-formed-looking diff with two hunks, a function-context remnant
after the first hunk marker, and a second hunk starting at a smaller line. -/
def diffCounter : Str :=
  "diff --git a/f.txt b/f.txt\n--- a/f.txt\n+++ b/f.txt\n@@ -9,2 +10,3 @@ function f() \x7b\n ctx\n+added\n@@ -1,1 +1,2 @@\n+early\n".data

/-- A single-hunk diff used as a concrete witness input. -/
def diffSimple : Str :=
  "diff --git a/f.txt b/f.txt\n@@ -1,2 +1,3 @@\n ctx\n+new\n".data

/-- The file segment of `diffSimple` (its part after `diff --git`). -/
def segSimple : Str :=
  " a/f.txt b/f.txt\n@@ -1,2 +1,3 @@\n ctx\n+new\n".data

/-- A segment with an `a/<path> b/` header whose only hunk marker is not
parseable. -/
def segBadHunk : Str :=
  " a/x.txt b/x.txt\n@@ garbage @@\ncontent\n".data

/-! ## Basic lemmas about the dependency map -/

theorem depsOf_eq_nil {g : DepGraph} {m : String} (h : m ∉ keys g) :
    depsOf g m = [] := by
  unfold depsOf
  rw [List.find?_eq_none.mpr]
  intro p hp hbeq
  exact h (List.mem_map.mpr ⟨p, hp, by simpa using hbeq⟩)

/-- Unfolding equation of `isCircular`, with the bookkeeping `attach`
removed: this is the recursion as written in the source. -/
theorem isCircular_eq (g : DepGraph) (m : String) (v : List String) :
    isCircular g m v =
      if m ∈ v then true
      else (depsOf g m).any fun d => isCircular g d (m :: v) := by
  rw [isCircular]
  by_cases h : m ∈ v
  · simp [h]
  · simp only [h, dite_false, if_false]
    rw [Bool.eq_iff_iff]
    simp [List.any_eq_true]

/-! ## Claim C7: the repository-URL validator -/

/-- C7: the repository-URL validator accepts an input (returns no error) if
and only if the input is non-empty, begins with `https://`, and contains
`github.com` or `gitlab.com`; every other input is rejected with an error
message. -/
theorem validateInput_accepts_iff (input : Str) :
    validateInput input = none ↔
      (input ≠ [] ∧ isPre ("https://".data) input = true ∧
        (containsSub ("github.com".data) input = true ∨
          containsSub ("gitlab.com".data) input = true)) := by
  unfold validateInput
  by_cases h1 : input = []
  · simp [h1]
  · cases h2 : isPre ("https://".data) input with
    | false => simp [h1, h2]
    | true =>
      cases h3 : containsSub ("github.com".data) input with
      | true => simp [h1, h2, h3]
      | false =>
        cases h4 : containsSub ("gitlab.com".data) input with
        | true => simp [h1, h2, h3, h4]
        | false => simp [h1, h2, h3, h4]

/-! ## Claim C8: per-file analysis error containment -/

theorem runAnalysis_append (a b : List FileSpec) :
    runAnalysis (a ++ b) =
      ((runAnalysis a).1 ++ (runAnalysis b).1,
        (runAnalysis a).2 ++ (runAnalysis b).2) := by
  induction a with
  | nil => simp [runAnalysis]
  | cons f fs ih => simp [runAnalysis, ih]

/-- C8: a failure of the security pass, the optimization pass, or the
file-access check for a single file never aborts the analysis run: the run
still produces the contributions of every other file, and the failed file
contributes no findings for the failed pass. -/
theorem analyzeFile_error_containment (fs1 : List FileSpec) (f : FileSpec)
    (fs2 : List FileSpec) :
    runAnalysis (fs1 ++ f :: fs2) =
      ((runAnalysis fs1).1 ++ (analyzeFileStep f).1 ++ (runAnalysis fs2).1,
        (runAnalysis fs1).2 ++ (analyzeFileStep f).2 ++ (runAnalysis fs2).2) ∧
    (∀ e, f.security = .error e → (analyzeFileStep f).1 = []) ∧
    (∀ e, f.optimization = .error e → (analyzeFileStep f).2 = []) ∧
    (∀ e, f.access = .error e → analyzeFileStep f = ([], [])) := by
  refine ⟨?_, ?_, ?_, ?_⟩
  · rw [runAnalysis_append]
    simp [runAnalysis]
  · intro e he
    cases ha : f.access <;> simp [analyzeFileStep, ha, he]
  · intro e he
    cases ha : f.access <;> simp [analyzeFileStep, ha, he]
  · intro e he
    simp [analyzeFileStep, he]

/-- Witness for C8: a concrete file whose security pass fails and a concrete
file whose access check fails contribute nothing for the failed passes. -/
theorem analyzeFile_error_containment_witness :
    (analyzeFileStep ⟨"bad.ts", .ok (), .error "boom", .ok []⟩).1 = [] ∧
      analyzeFileStep ⟨"gone.ts", .error "ENOENT", .ok [], .ok []⟩ = ([], []) :=
  ⟨(analyzeFile_error_containment [] ⟨"bad.ts", .ok (), .error "boom", .ok []⟩ []).2.1
      "boom" rfl,
    (analyzeFile_error_containment [] ⟨"gone.ts", .error "ENOENT", .ok [], .ok []⟩ []).2.2.2
      "ENOENT" rfl⟩

/-! ## Claims C9 and C2: the circular-dependency detector -/

/-- C9: the recursive cycle check `isCircular` terminates on every finite
dependency map, cyclic maps included: it is a total function satisfying the
recursion written in the source (guard on the visited set, then the
depth-first descent over the module's dependencies with the extended
visited set).  Totality rests on the strict growth of the visited set
along each path, measured against the finite key set of the map. -/
theorem isCircular_total_eq (g : DepGraph) (m : String) (v : List String) :
    isCircular g m v =
      if m ∈ v then true
      else (depsOf g m).any fun d => isCircular g d (m :: v) :=
  isCircular_eq g m v

theorem mem_keys_of_imports {g : DepGraph} {a b : String} (h : Imports g a b) :
    a ∈ keys g := by
  by_contra hk
  rw [Imports, depsOf_eq_nil hk] at h
  exact absurd h (List.not_mem_nil b)

theorem isCircular_of_reaches {g : DepGraph} {m x : String}
    (h : Relation.ReflTransGen (Imports g) m x) :
    ∀ v, x ∈ v → isCircular g m v = true := by
  induction h using Relation.ReflTransGen.head_induction_on with
  | refl =>
    intro v hv
    rw [isCircular_eq]
    simp [hv]
  | head step tail ih =>
    rename_i a c
    intro v hv
    rw [isCircular_eq]
    by_cases hm : a ∈ v
    · simp [hm]
    · simp only [hm, if_false]
      exact List.any_eq_true.mpr ⟨c, step, ih (a :: v) (List.mem_cons_of_mem _ hv)⟩

theorem reach_or_cycle_of_isCircular {g : DepGraph} :
    ∀ (n : Nat) (m : String) (v : List String),
      ((keys g).toFinset \ v.toFinset).card ≤ n → isCircular g m v = true →
      (∃ x ∈ v, Relation.ReflTransGen (Imports g) m x) ∨
        (∃ y, Relation.TransGen (Imports g) y y) := by
  intro n
  induction n with
  | zero =>
    intro m v hcard htrue
    rw [isCircular_eq] at htrue
    by_cases hm : m ∈ v
    · exact Or.inl ⟨m, hm, Relation.ReflTransGen.refl⟩
    · exfalso
      have hk : m ∉ keys g := by
        intro hkk
        have hmem : m ∈ (keys g).toFinset \ v.toFinset := by simp [hkk, hm]
        have hpos := Finset.card_pos.mpr ⟨m, hmem⟩
        omega
      rw [depsOf_eq_nil hk] at htrue
      simp [hm] at htrue
  | succ n ih =>
    intro m v hcard htrue
    rw [isCircular_eq] at htrue
    by_cases hm : m ∈ v
    · exact Or.inl ⟨m, hm, Relation.ReflTransGen.refl⟩
    · simp only [hm, if_false] at htrue
      obtain ⟨d, hd, hdt⟩ := List.any_eq_true.mp htrue
      have hk : m ∈ keys g := by
        by_contra hkk
        rw [depsOf_eq_nil hkk] at hd
        exact absurd hd (List.not_mem_nil d)
      have hcard' : ((keys g).toFinset \ (m :: v).toFinset).card ≤ n := by
        have hmem : m ∈ (keys g).toFinset \ v.toFinset := by simp [hk, hm]
        rw [List.toFinset_cons, Finset.sdiff_insert]
        have hlt := Finset.card_erase_lt_of_mem hmem
        omega
      rcases ih d (m :: v) hcard' hdt with ⟨x, hx, hreach⟩ | hcyc
      · rcases List.mem_cons.mp hx with heq | hxv
        · subst heq
          exact Or.inr ⟨_, Relation.TransGen.head' hd hreach⟩
        · exact Or.inl ⟨x, hxv, Relation.ReflTransGen.head hd hreach⟩
      · exact Or.inr hcyc

/-- C2: the circular-dependency detector marks every module that directly or
transitively imports itself, and marks no module at all when the import
graph is acyclic. -/
theorem findCircular_correct (g : DepGraph) :
    (∀ m, Relation.TransGen (Imports g) m m → m ∈ findCircularDependencies g) ∧
    (Acyclic g → findCircularDependencies g = []) := by
  constructor
  · intro m hcyc
    obtain ⟨b, hb, hreach⟩ := Relation.TransGen.head'_iff.mp hcyc
    have hk : m ∈ keys g := mem_keys_of_imports hb
    have htrue : isCircular g m [] = true := by
      rw [isCircular_eq]
      simp only [List.not_mem_nil, if_false]
      exact List.any_eq_true.mpr
        ⟨b, hb, isCircular_of_reaches hreach [m] (by simp)⟩
    exact List.mem_filter.mpr ⟨hk, htrue⟩
  · intro hacyc
    unfold findCircularDependencies
    rw [List.filter_eq_nil_iff]
    intro m _ htrue
    rcases reach_or_cycle_of_isCircular _ m [] le_rfl htrue with ⟨x, hx, _⟩ | ⟨y, hy⟩
    · exact absurd hx (List.not_mem_nil x)
    · exact hacyc y hy

theorem gAcy_steps {a b : String} (h : Imports gAcy a b) : a = "A" ∧ b = "B" := by
  by_cases ha : a = "A"
  · subst ha
    have hd : depsOf gAcy "A" = ["B"] := by decide
    rw [Imports, hd] at h
    simp only [List.mem_singleton] at h
    exact ⟨rfl, h⟩
  · by_cases hb : a = "B"
    · subst hb
      have hd : depsOf gAcy "B" = [] := by decide
      rw [Imports, hd] at h
      exact absurd h (List.not_mem_nil b)
    · have hk : a ∉ keys gAcy := by
        intro hmem
        have : a = "A" ∨ a = "B" := by
          have hkeys : keys gAcy = ["A", "B"] := by decide
          rw [hkeys] at hmem
          simpa using hmem
        tauto
      rw [Imports, depsOf_eq_nil hk] at h
      exact absurd h (List.not_mem_nil b)

theorem gAcy_acyclic : Acyclic gAcy := by
  intro m hm
  have hstep : ∀ a b, Relation.TransGen (Imports gAcy) a b → a = "A" ∧ b = "B" := by
    intro a b h
    induction h with
    | single h1 => exact gAcy_steps h1
    | tail _ h1 ih =>
      obtain ⟨ha, hc⟩ := ih
      obtain ⟨hc', _⟩ := gAcy_steps h1
      rw [hc] at hc'
      exact absurd hc' (by decide)
  obtain ⟨h1, h2⟩ := hstep m m hm
  rw [h1] at h2
  exact absurd h2 (by decide)

/-- Witness for C2: module `A` of the two-cycle `A → B → A` is flagged, and
the detector flags nothing on the acyclic map `A → B`. -/
theorem findCircular_correct_witness :
    "A" ∈ findCircularDependencies gCyc ∧ findCircularDependencies gAcy = [] := by
  constructor
  · have hAB : Imports gCyc "A" "B" := by decide
    have hBA : Imports gCyc "B" "A" := by decide
    exact (findCircular_correct gCyc).1 "A"
      (Relation.TransGen.head hAB (Relation.TransGen.single hBA))
  · exact (findCircular_correct gAcy).2 gAcy_acyclic

/-! ## Claim C10: `usedBy` and `dependencies` are converse -/

theorem depsOf_of_mem_nodup {g : DepGraph} {p : String × List String}
    (hnd : (keys g).Nodup) (hp : p ∈ g) : depsOf g p.1 = p.2 := by
  induction g with
  | nil => exact absurd hp (List.not_mem_nil p)
  | cons q t ih =>
    rcases List.mem_cons.mp hp with heq | hmem
    · subst heq
      unfold depsOf
      simp [List.find?]
    · have hq : q.1 ≠ p.1 := by
        intro hc
        have hfst : p.1 ∈ keys t := List.mem_map.mpr ⟨p, hmem, rfl⟩
        have := (List.nodup_cons.mp hnd).1
        rw [hc] at this
        exact this hfst
      unfold depsOf
      rw [List.find?]
      have hbeq : (q.1 == p.1) = false := beq_eq_false_iff_ne.mpr hq
      rw [hbeq]
      exact ih (List.nodup_cons.mp hnd).2 hmem

theorem mem_findUsages_iff {g : DepGraph} {A B : String} :
    A ∈ findUsages B g ↔ ∃ p ∈ g, p.1 = A ∧ B ∈ p.2 := by
  unfold findUsages
  constructor
  · intro h
    obtain ⟨p, hp, hA⟩ := List.mem_map.mp h
    obtain ⟨hpg, hcont⟩ := List.mem_filter.mp hp
    exact ⟨p, hpg, hA, by simpa using hcont⟩
  · rintro ⟨p, hpg, hA, hB⟩
    exact List.mem_map.mpr
      ⟨p, List.mem_filter.mpr ⟨hpg, by simpa using hB⟩, hA⟩

/-- C10: in the dependency report, `usedBy` and `dependencies` are converse
relations: for modules `A` and `B` of the map, `A` is listed in `usedBy` of
`B`'s record exactly when `B` belongs to `A`'s imports. -/
theorem usedBy_dependencies_converse (g : DepGraph) (hnd : (keys g).Nodup)
    (A B : String) (hA : A ∈ keys g) (rec : DependencyInfo)
    (hrec : rec ∈ analyzeDependencies g) (hmod : rec.module = B) :
    A ∈ rec.usedBy ↔ B ∈ depsOf g A := by
  obtain ⟨p, hp, hpe⟩ := List.mem_map.mp hrec
  have husd : rec.usedBy = findUsages B g := by
    rw [← hpe] at hmod ⊢
    simpa using congrArg (findUsages · g) hmod
  rw [husd, mem_findUsages_iff]
  constructor
  · rintro ⟨q, hqg, hqA, hqB⟩
    have hd : depsOf g q.1 = q.2 := depsOf_of_mem_nodup hnd hqg
    rw [hqA] at hd
    rw [hd]
    exact hqB
  · intro hB
    obtain ⟨q, hqg, hqA⟩ : ∃ q ∈ g, q.1 = A := by
      obtain ⟨q, hqg, hqA⟩ := List.mem_map.mp hA
      exact ⟨q, hqg, hqA⟩
    refine ⟨q, hqg, hqA, ?_⟩
    have hd : depsOf g q.1 = q.2 := depsOf_of_mem_nodup hnd hqg
    rw [hqA] at hd
    rw [← hd]
    exact hB

theorem isCircular_gAcy_B1 : isCircular gAcy "B" ["A"] = false := by
  rw [isCircular_eq, if_neg (by decide)]
  have h : depsOf gAcy "B" = [] := by decide
  rw [h]
  rfl

theorem isCircular_gAcy_B0 : isCircular gAcy "B" [] = false := by
  rw [isCircular_eq, if_neg (by decide)]
  have h : depsOf gAcy "B" = [] := by decide
  rw [h]
  rfl

theorem isCircular_gAcy_A0 : isCircular gAcy "A" [] = false := by
  rw [isCircular_eq, if_neg (by decide)]
  have h : depsOf gAcy "A" = ["B"] := by decide
  rw [h]
  simp [isCircular_gAcy_B1]

theorem findCircular_gAcy : findCircularDependencies gAcy = [] := by
  unfold findCircularDependencies
  have hk : keys gAcy = ["A", "B"] := by decide
  rw [hk]
  simp [List.filter, isCircular_gAcy_A0, isCircular_gAcy_B0]

theorem analyzeDependencies_gAcy :
    analyzeDependencies gAcy =
      [⟨"A", [], ["B"], false⟩, ⟨"B", ["A"], [], false⟩] := by
  unfold analyzeDependencies
  rw [findCircular_gAcy]
  have hu1 : findUsages "A" [("A", ["B"]), ("B", [])] = [] := by decide
  have hu2 : findUsages "B" [("A", ["B"]), ("B", [])] = ["A"] := by decide
  simp [gAcy, hu1, hu2]

/-- Witness for C10 on the concrete map `A → B`: `A` is in `usedBy` of `B`'s
record exactly when `B` is among `A`'s dependencies. -/
theorem usedBy_dependencies_converse_witness :
    "A" ∈ (DependencyInfo.mk "B" ["A"] [] false).usedBy ↔ "B" ∈ depsOf gAcy "A" :=
  usedBy_dependencies_converse gAcy (by decide) "A" "B" (by decide)
    ⟨"B", ["A"], [], false⟩ (by rw [analyzeDependencies_gAcy]; simp) rfl

/-! ## Claim C3: pull failure, recovery, merge abort -/

theorem recoverySeq_mem (env : GitEnv) (tr : List GitCall) :
    GitCall.fetchBranch ∈ (recoverySeq env tr).2 ∧
    (isOkE env.fetchBranch = true → GitCall.checkoutTemp ∈ (recoverySeq env tr).2) ∧
    (isOkE env.fetchBranch = true → isOkE env.checkoutTemp = true →
      GitCall.resetHard ∈ (recoverySeq env tr).2) ∧
    (isOkE env.fetchBranch = true → isOkE env.checkoutTemp = true →
      isOkE env.resetHard = true → GitCall.checkoutOrig ∈ (recoverySeq env tr).2) ∧
    (isOkE env.fetchBranch = true → isOkE env.checkoutTemp = true →
      isOkE env.resetHard = true → isOkE env.checkoutOrig = true →
      GitCall.mergeTemp ∈ (recoverySeq env tr).2) ∧
    (isOkE env.fetchBranch = true → isOkE env.checkoutTemp = true →
      isOkE env.resetHard = true → isOkE env.checkoutOrig = true →
      isOkE env.mergeTemp = true → GitCall.deleteTemp ∈ (recoverySeq env tr).2) := by
  unfold recoverySeq
  rcases h1 : env.fetchBranch with e1 | u1 <;>
    rcases h2 : env.checkoutTemp with e2 | u2 <;>
    rcases h3 : env.resetHard with e3 | u3 <;>
    rcases h4 : env.checkoutOrig with e4 | u4 <;>
    rcases h5 : env.mergeTemp with e5 | u5 <;>
    rcases h6 : env.deleteTemp with e6 | u6 <;>
    simp [isOkE, h1, h2, h3, h4, h5, h6]

theorem recoverySeq_fails_iff (env : GitEnv) (tr : List GitCall) :
    (∃ er, (recoverySeq env tr).1 = Except.error er) ↔ RecoveryFails env := by
  unfold recoverySeq RecoveryFails
  rcases h1 : env.fetchBranch with e1 | u1 <;>
    rcases h2 : env.checkoutTemp with e2 | u2 <;>
    rcases h3 : env.resetHard with e3 | u3 <;>
    rcases h4 : env.checkoutOrig with e4 | u4 <;>
    rcases h5 : env.mergeTemp with e5 | u5 <;>
    rcases h6 : env.deleteTemp with e6 | u6 <;>
    simp [isOkE, h1, h2, h3, h4, h5, h6]

theorem recoverySeq_trace_mono (env : GitEnv) (tr : List GitCall) {c : GitCall}
    (hc : c ∈ tr) : c ∈ (recoverySeq env tr).2 := by
  unfold recoverySeq
  rcases h1 : env.fetchBranch with e1 | u1 <;>
    rcases h2 : env.checkoutTemp with e2 | u2 <;>
    rcases h3 : env.resetHard with e3 | u3 <;>
    rcases h4 : env.checkoutOrig with e4 | u4 <;>
    rcases h5 : env.mergeTemp with e5 | u5 <;>
    rcases h6 : env.deleteTemp with e6 | u6 <;>
    simp [h1, h2, h3, h4, h5, h6, hc]

theorem recoveryCatch_trace_mono (env : GitEnv) (tr : List GitCall) {c : GitCall}
    (hc : c ∈ (recoverySeq env tr).2) : c ∈ (recoveryCatch env tr).2 := by
  unfold recoveryCatch
  rcases hr : recoverySeq env tr with ⟨res, tr'⟩
  rw [hr] at hc
  cases res <;> simp [hc]

theorem recoveryCatch_fails (env : GitEnv) (tr : List GitCall)
    (hf : RecoveryFails env) :
    GitCall.mergeAbort ∈ (recoveryCatch env tr).2 ∧
      (recoveryCatch env tr).1 = .error conflictMsg := by
  obtain ⟨er, her⟩ := (recoverySeq_fails_iff env tr).mpr hf
  unfold recoveryCatch
  rcases hr : recoverySeq env tr with ⟨res, tr'⟩
  rw [hr] at her
  simp only at her
  rw [her]
  simp

theorem postPhase_trace_mono (env : GitEnv) (s0 : StatusF) (h0 : String)
    (tr : List GitCall) {c : GitCall} (hc : c ∈ tr) :
    c ∈ (postPhase env s0 h0 tr).2 := by
  unfold postPhase
  cases hns : needsStash s0 <;>
    rcases hs : env.status1 with e | s <;>
    rcases hr : env.revparse1 with e2 | hd1 <;>
    simp [hns, hs, hr, hc] <;>
    split_ifs <;>
    rcases hl : env.logSummary with e3 | u3 <;>
    simp [hl, hc]

theorem pullLatest_trace (env : GitEnv) :
    (pullLatestChanges env).2 = (mainBody env).2 := by
  unfold pullLatestChanges
  rcases hm : mainBody env with ⟨res, tr⟩
  cases res <;> simp

/-- C3: whenever the plain pull step of `pullLatestChanges` fails, the
divergent-branch recovery is attempted (branch fetch, temporary branch
creation, hard reset, return-and-merge, temporary-branch deletion, each next
step once the previous succeeded); and whenever that recovery also fails,
`merge --abort` is attempted and the operation terminates with the wrapped
manual-resolution error — never with success. -/
theorem pullLatestChanges_recovery (env : GitEnv) (s0 : StatusF)
    (h0 br pr : String)
    (hst : env.status0 = .ok s0) (hrv : env.revparse0 = .ok h0)
    (hbr : env.branchInfo = .ok br) (hfr : env.fetchRemote = .ok ())
    (hstash : needsStash s0 = true → env.stash = .ok ())
    (hcfg : env.configPull = .ok ()) (hpull : env.pull = .error pr) :
    GitCall.fetchBranch ∈ (pullLatestChanges env).2 ∧
    (isOkE env.fetchBranch = true →
      GitCall.checkoutTemp ∈ (pullLatestChanges env).2) ∧
    (isOkE env.fetchBranch = true → isOkE env.checkoutTemp = true →
      GitCall.resetHard ∈ (pullLatestChanges env).2) ∧
    (isOkE env.fetchBranch = true → isOkE env.checkoutTemp = true →
      isOkE env.resetHard = true →
      GitCall.checkoutOrig ∈ (pullLatestChanges env).2) ∧
    (isOkE env.fetchBranch = true → isOkE env.checkoutTemp = true →
      isOkE env.resetHard = true → isOkE env.checkoutOrig = true →
      GitCall.mergeTemp ∈ (pullLatestChanges env).2) ∧
    (isOkE env.fetchBranch = true → isOkE env.checkoutTemp = true →
      isOkE env.resetHard = true → isOkE env.checkoutOrig = true →
      isOkE env.mergeTemp = true →
      GitCall.deleteTemp ∈ (pullLatestChanges env).2) ∧
    (RecoveryFails env →
      GitCall.mergeAbort ∈ (pullLatestChanges env).2 ∧
      (pullLatestChanges env).1 =
        .error ("Failed to pull latest changes: " ++ conflictMsg)) := by
  have hred : ∃ T, mainBody env = recoveryCatchStep env s0 h0 T := by
    cases hns : needsStash s0
    · refine ⟨[GitCall.status0, GitCall.revparse0, GitCall.branchInfo,
        GitCall.fetchRemote, GitCall.configPull, GitCall.pull], ?_⟩
      unfold mainBody pullPhase recoveryCatchStep
      simp [hst, hrv, hbr, hfr, hns, hcfg, hpull]
    · refine ⟨[GitCall.status0, GitCall.revparse0, GitCall.branchInfo,
        GitCall.fetchRemote, GitCall.stash, GitCall.configPull, GitCall.pull], ?_⟩
      unfold mainBody pullPhase recoveryCatchStep
      simp [hst, hrv, hbr, hfr, hns, hstash hns, hcfg, hpull]
  obtain ⟨T, hT⟩ := hred
  have hmemlift : ∀ c, c ∈ (recoverySeq env T).2 → c ∈ (pullLatestChanges env).2 := by
    intro c hc
    rw [pullLatest_trace, hT]
    unfold recoveryCatchStep
    have hc' := recoveryCatch_trace_mono env T hc
    rcases hrc : recoveryCatch env T with ⟨res, tr'⟩
    rw [hrc] at hc'
    cases res <;> simp [hc']
    exact postPhase_trace_mono env s0 h0 tr' hc'
  obtain ⟨m1, m2, m3, m4, m5, m6⟩ := recoverySeq_mem env T
  refine ⟨hmemlift _ m1,
    fun a => hmemlift _ (m2 a),
    fun a b => hmemlift _ (m3 a b),
    fun a b c => hmemlift _ (m4 a b c),
    fun a b c d => hmemlift _ (m5 a b c d),
    fun a b c d e => hmemlift _ (m6 a b c d e), ?_⟩
  intro hfail
  obtain ⟨habort, herr⟩ := recoveryCatch_fails env T hfail
  constructor
  · rw [pullLatest_trace, hT]
    unfold recoveryCatchStep
    rcases hrc : recoveryCatch env T with ⟨res, tr'⟩
    rw [hrc] at habort herr
    simp only at herr
    rw [herr]
    simpa using habort
  · unfold pullLatestChanges
    rw [hT]
    unfold recoveryCatchStep
    rcases hrc : recoveryCatch env T with ⟨res, tr'⟩
    rw [hrc] at herr
    simp only at herr
    rw [herr]

/-- Witness for C3: in `envW` the pull fails, the recovery is attempted up
to the failing hard reset, the merge abort is attempted, and the operation
ends with the wrapped manual-resolution error. -/
theorem pullLatestChanges_recovery_witness :
    GitCall.fetchBranch ∈ (pullLatestChanges envW).2 ∧
    GitCall.checkoutTemp ∈ (pullLatestChanges envW).2 ∧
    GitCall.resetHard ∈ (pullLatestChanges envW).2 ∧
    GitCall.mergeAbort ∈ (pullLatestChanges envW).2 ∧
    (pullLatestChanges envW).1 =
      .error ("Failed to pull latest changes: " ++ conflictMsg) := by
  have h := pullLatestChanges_recovery envW ⟨[], []⟩ "aaaa" "main"
    "divergent branches" rfl rfl rfl rfl (fun _ => rfl) rfl rfl
  have hfail : RecoveryFails envW := by decide
  obtain ⟨w1, w2, w3, _, _, _, w7⟩ := h
  obtain ⟨wa, we⟩ := w7 hfail
  exact ⟨w1, w2 (by decide), w3 (by decide) (by decide), wa, we⟩

/-! ## Claim C4: the secret scanner -/

theorem isPre_iff_append {n h : Str} : isPre n h = true ↔ ∃ t, h = n ++ t := by
  induction n generalizing h with
  | nil => simp [isPre]
  | cons a as ih =>
    cases h with
    | nil => simp [isPre]
    | cons b bs =>
      simp only [isPre, Bool.and_eq_true, beq_iff_eq, ih, List.cons_append,
        List.cons.injEq]
      constructor
      · rintro ⟨rfl, t, rfl⟩
        exact ⟨t, rfl, rfl⟩
      · rintro ⟨t, rfl, rfl⟩
        exact ⟨rfl, t, rfl⟩

theorem containsSub_iff {n h : Str} :
    containsSub n h = true ↔ ∃ p t, h = p ++ n ++ t := by
  induction h with
  | nil =>
    simp only [containsSub, isPre_iff_append]
    constructor
    · rintro ⟨t, ht⟩
      exact ⟨[], t, ht⟩
    · rintro ⟨p, t, ht⟩
      rcases List.append_eq_nil.mp (List.append_eq_nil.mp ht.symm).1 with ⟨_, hn⟩
      exact ⟨t, by simp_all⟩
  | cons c cs ih =>
    simp only [containsSub, Bool.or_eq_true, isPre_iff_append, ih]
    constructor
    · rintro (⟨t, ht⟩ | ⟨p, t, ht⟩)
      · exact ⟨[], t, by simpa using ht⟩
      · exact ⟨c :: p, t, by simp [ht]⟩
    · rintro ⟨p, t, ht⟩
      cases p with
      | nil => exact Or.inl ⟨t, by simpa using ht⟩
      | cons x xs =>
        rcases List.cons.injEq .. ▸ ht with ⟨rfl, hrest⟩
        exact Or.inr ⟨xs, t, by simpa using hrest⟩

theorem containsSub_of_drop {n h : Str} {k : Nat}
    (hd : containsSub n (h.drop k) = true) : containsSub n h = true := by
  obtain ⟨p, t, hpt⟩ := containsSub_iff.mp hd
  refine containsSub_iff.mpr ⟨h.take k ++ p, t, ?_⟩
  conv_lhs => rw [← List.take_append_drop k h]
  rw [hpt]
  simp [List.append_assoc]

theorem tryKeywordsAt_some_kw {kws : List Str} {l r : Str}
    (h : tryKeywordsAt kws l = some r) :
    ∃ kw ∈ kws, lcPre kw l = true := by
  induction kws with
  | nil => exact absurd h (by simp [tryKeywordsAt])
  | cons kw rest ih =>
    rw [tryKeywordsAt] at h
    rcases hm : matchKeywordAt kw l with _ | r'
    · rw [hm] at h
      obtain ⟨kw', hmem, hp⟩ := ih h
      exact ⟨kw', List.mem_cons_of_mem _ hmem, hp⟩
    · rw [hm] at h
      unfold matchKeywordAt at hm
      by_cases hp : lcPre kw l = true
      · exact ⟨kw, List.mem_cons_self .., hp⟩
      · rw [if_neg hp] at hm
        exact absurd hm (by simp)

theorem scanSecret_some_kw {kws : List Str} {l r : Str}
    (h : scanSecret kws l = some r) :
    ∃ (n : Nat), ∃ kw ∈ kws, lcPre kw (l.drop n) = true := by
  induction l with
  | nil => exact absurd h (by simp [scanSecret])
  | cons c cs ih =>
    rw [scanSecret] at h
    rcases ht : tryKeywordsAt kws (c :: cs) with _ | r'
    · rw [ht] at h
      obtain ⟨n, kw, hmem, hp⟩ := ih h
      exact ⟨n + 1, kw, hmem, by simpa using hp⟩
    · rw [ht] at h
      obtain ⟨kw, hmem, hp⟩ := tryKeywordsAt_some_kw ht
      exact ⟨0, kw, hmem, by simpa using hp⟩

theorem lcPre_drop_contains {kw l : Str} {n : Nat}
    (h : lcPre kw (l.drop n) = true) :
    containsSub kw (l.map Char.toLower) = true := by
  unfold lcPre at h
  obtain ⟨t, ht⟩ := isPre_iff_append.mp h
  have hd : (l.map Char.toLower).drop n = kw ++ t := by
    rw [← List.map_drop]
    exact ht
  have hsub : containsSub kw ((l.map Char.toLower).drop n) = true :=
    containsSub_iff.mpr ⟨[], t, by simp [hd]⟩
  exact containsSub_of_drop hsub

theorem scanSecret_none_of_no_kw {kws : List Str} {l : Str}
    (h : ∀ kw ∈ kws, containsSub kw (l.map Char.toLower) = false) :
    scanSecret kws l = none := by
  rcases hs : scanSecret kws l with _ | r
  · rfl
  · obtain ⟨n, kw, hmem, hp⟩ := scanSecret_some_kw hs
    have := lcPre_drop_contains hp
    rw [h kw hmem] at this
    exact absurd this (by simp)

theorem regexTestG_false_of_no_kw {kws : List Str} {l : Str} {i : Nat}
    (h : ∀ kw ∈ kws, containsSub kw (l.map Char.toLower) = false) :
    regexTestG kws l i = (false, 0) := by
  unfold regexTestG
  have hnone : scanSecret kws (l.drop i) = none := by
    apply scanSecret_none_of_no_kw
    intro kw hmem
    rcases hc : containsSub kw ((l.drop i).map Char.toLower) with _ | _
    · rfl
    · have : containsSub kw (l.map Char.toLower) = true := by
        rw [List.map_drop] at hc
        exact containsSub_of_drop hc
      rw [h kw hmem] at this
      exact absurd this (by simp)
  rw [hnone]

theorem checkSecretsAux_nil_of_no_kw {lines : List Str} :
    (∀ l ∈ lines, ∀ kw ∈ kwSecret1 ++ kwSecret2 ++ kwSecret3,
      containsSub kw (l.map Char.toLower) = false) →
    ∀ idx st, checkSecretsAux idx st lines = [] := by
  induction lines with
  | nil => intro _ idx st; rfl
  | cons l ls ih =>
    intro h idx st
    obtain ⟨i1, i2, i3⟩ := st
    have hl := h l (List.mem_cons_self ..)
    have h1 : regexTestG kwSecret1 l i1 = (false, 0) :=
      regexTestG_false_of_no_kw (fun kw hk => hl kw (by simp [hk]))
    have h2 : regexTestG kwSecret2 l i2 = (false, 0) :=
      regexTestG_false_of_no_kw (fun kw hk => hl kw (by simp [hk]))
    have h3 : regexTestG kwSecret3 l i3 = (false, 0) :=
      regexTestG_false_of_no_kw (fun kw hk => hl kw (by simp [hk]))
    rw [checkSecretsAux, h1, h2, h3]
    simpa using ih (fun l' hl' => h l' (List.mem_cons_of_mem _ hl')) (idx + 1) (0, 0, 0)

theorem tryKeywordsAt_apiKey (post : Str) :
    tryKeywordsAt kwSecret1 (apiKeyLine ++ post) = some post := rfl

theorem scanSecret_isSome_of_suffix {kws : List Str}
    (hnil : tryKeywordsAt kws [] = none) :
    ∀ (pre rest : Str), (tryKeywordsAt kws rest).isSome →
      (scanSecret kws (pre ++ rest)).isSome := by
  intro pre
  induction pre with
  | nil =>
    intro rest hr
    cases rest with
    | nil => rw [hnil] at hr; exact absurd hr (by simp)
    | cons c cs =>
      rw [List.nil_append, scanSecret]
      rcases ht : tryKeywordsAt kws (c :: cs) with _ | r
      · rw [ht] at hr; exact absurd hr (by simp)
      · simp
  | cons c cs ih =>
    intro rest hr
    rw [List.cons_append, scanSecret]
    rcases ht : tryKeywordsAt kws (c :: (cs ++ rest)) with _ | r
    · exact ih rest hr
    · simp

/-- C4 (amended): on an input whose first line contains
`apiKey = "abc123"`, the secret scanner emits a critical `secret-exposure`
finding for that line; on an input none of whose lines contains any of the
secret keywords (case-insensitively), it emits no finding at all.  (Because
the three `g`-flag regex objects are shared across the line loop, their
`lastIndex` state can suppress findings on later lines; the first line is
immune.) -/
theorem checkSecrets_claim (content : Str) :
    (∀ l ls, splitNl content = l :: ls →
      containsSub apiKeyLine l = true →
      ∃ issue ∈ checkSecrets content,
        issue.line = some 1 ∧ issue.severity = .critical ∧
          issue.type = "secret-exposure") ∧
    ((∀ l ∈ splitNl content, ∀ kw ∈ kwSecret1 ++ kwSecret2 ++ kwSecret3,
        containsSub kw (l.map Char.toLower) = false) →
      checkSecrets content = []) := by
  constructor
  · intro l ls hsplit hcont
    obtain ⟨p, t, hpt⟩ := containsSub_iff.mp hcont
    have hsome : (scanSecret kwSecret1 l).isSome := by
      rw [hpt, List.append_assoc]
      exact scanSecret_isSome_of_suffix
        (show tryKeywordsAt kwSecret1 [] = none by rfl) p (apiKeyLine ++ t)
        (by rw [tryKeywordsAt_apiKey]; simp)
    have htest : (regexTestG kwSecret1 l 0).1 = true := by
      unfold regexTestG
      rcases hs : scanSecret kwSecret1 (l.drop 0) with _ | r
      · rw [List.drop_zero] at hs
        rw [hs] at hsome
        exact absurd hsome (by simp)
      · simp
    refine ⟨secretIssue secretMsg1 1, ?_, rfl, rfl, rfl⟩
    unfold checkSecrets
    rw [hsplit, checkSecretsAux]
    rcases h1 : regexTestG kwSecret1 l 0 with ⟨b1, n1⟩
    rw [h1] at htest
    simp only at htest
    rw [htest]
    simp
  · intro h
    unfold checkSecrets
    exact checkSecretsAux_nil_of_no_kw h 0 (0, 0, 0)

/-- Witness for C4: the single-line input `apiKey = "abc123"` yields a
critical finding for line 1, and a keyword-free two-line input yields no
findings. -/
theorem checkSecrets_claim_witness :
    (∃ issue ∈ checkSecrets apiKeyLine,
      issue.line = some 1 ∧ issue.severity = .critical ∧
        issue.type = "secret-exposure") ∧
    checkSecrets ("hello world\nfoo bar".data) = [] :=
  ⟨(checkSecrets_claim apiKeyLine).1 apiKeyLine [] (by decide) (by decide),
    (checkSecrets_claim ("hello world\nfoo bar".data)).2 (by decide)⟩

/-- Counterexample for C4 as stated: `secretCounter` contains the line
`apiKey = "abc123"` (as its second line), yet the scanner's only finding is
for line 1 — no finding at all is attached to that line, because the first
pattern's `lastIndex` was left behind the end of the shorter second line. -/
theorem checkSecrets_counterexample :
    (splitNl secretCounter).getD 1 [] = apiKeyLine ∧
      checkSecrets secretCounter = [secretIssue secretMsg1 1] := by
  constructor
  · decide
  · decide

/-! ## Claim C5: the nesting-depth check -/

theorem splitNl_ne_nil (s : Str) : splitNl s ≠ [] := by
  rw [splitNl.eq_def]
  split
  · simp
  · simp
  · rename_i c r _
    rcases h : splitNl r with _ | ⟨t, ts⟩ <;> simp

theorem splitNl_cons_ne {c : Char} (r : Str) (hc : ¬ c = '\n') :
    splitNl (c :: r) =
      match splitNl r with
      | [] => [[c]]
      | t :: ts => (c :: t) :: ts := by
  rw [splitNl.eq_def]
  split
  · rename_i heq
    simp at heq
  · rename_i heq
    rw [List.cons.injEq] at heq
    exact absurd heq.1 hc
  · rename_i c' r' hne heq
    rw [List.cons.injEq] at heq
    rw [← heq.1, ← heq.2]

theorem joinNl_splitNl (s : Str) : joinNl (splitNl s) = s := by
  induction s with
  | nil => rfl
  | cons c r ih =>
    by_cases hc : c = '\n'
    · subst hc
      rw [show splitNl ('\n' :: r) = [] :: splitNl r from rfl]
      rcases h : splitNl r with _ | ⟨t, ts⟩
      · exact absurd h (splitNl_ne_nil r)
      · rw [h] at ih
        show (([] : Str) ++ ('\n' :: joinNl (t :: ts))) = '\n' :: r
        simp [ih]
    · rw [splitNl_cons_ne r hc]
      rcases h : splitNl r with _ | ⟨t, ts⟩
      · exact absurd h (splitNl_ne_nil r)
      · rw [h] at ih
        rcases ts with _ | ⟨u, us⟩
        · show (c :: t) = c :: r
          rw [show joinNl [t] = t from rfl] at ih
          rw [ih]
        · show ((c :: t) ++ ('\n' :: joinNl (u :: us))) = c :: r
          rw [show joinNl (t :: u :: us) = t ++ '\n' :: joinNl (u :: us) from rfl] at ih
          simp [ih]

theorem braceDepthMax_eq_braceStep (s : Str) :
    ∀ d m, braceDepthMax d m s = (braceStep (d, m) s).2 := by
  induction s with
  | nil => intro d m; rfl
  | cons c r ih =>
    intro d m
    rw [braceDepthMax, braceStep]
    by_cases h1 : c = braceOpen
    · simp only [h1, if_true]
      exact ih _ _
    · by_cases h2 : c = braceClose
      · simp only [h1, h2, if_false, if_true]
        exact ih _ _
      · simp only [h1, h2, if_false]
        exact ih _ _

theorem braceStep_append (a b : Str) :
    ∀ p, braceStep p (a ++ b) = braceStep (braceStep p a) b := by
  induction a with
  | nil => intro p; rfl
  | cons c r ih =>
    intro p
    obtain ⟨d, m⟩ := p
    rw [List.cons_append, braceStep, braceStep]
    by_cases h1 : c = braceOpen
    · simp only [h1, if_true]
      exact ih _
    · by_cases h2 : c = braceClose
      · simp only [h1, h2, if_false, if_true]
        exact ih _
      · simp only [h1, h2, if_false]
        exact ih _

theorem braceStep_no_brace {l : Str} (h : ∀ c ∈ l, isBrace c = false) :
    ∀ p, braceStep p l = p := by
  induction l with
  | nil => intro p; rfl
  | cons c r ih =>
    intro p
    obtain ⟨d, m⟩ := p
    have hc := h c (List.mem_cons_self ..)
    unfold isBrace at hc
    simp only [Bool.or_eq_false_iff, beq_eq_false_iff_ne, ne_eq] at hc
    rw [braceStep, if_neg hc.1, if_neg hc.2]
    exact ih (fun x hx => h x (List.mem_cons_of_mem _ hx)) _

theorem mem_dropWhile_iff {p : Char → Bool} {c : Char} (hc : p c = false)
    (l : Str) : c ∈ l.dropWhile p ↔ c ∈ l := by
  have hsplit : l.takeWhile p ++ l.dropWhile p = l :=
    List.takeWhile_append_dropWhile p l
  constructor
  · intro h
    rw [← hsplit]
    exact List.mem_append_right _ h
  · intro h
    rw [← hsplit] at h
    rcases List.mem_append.mp h with h1 | h2
    · have hp := List.mem_takeWhile_imp h1
      rw [hc] at hp
      exact absurd hp (by simp)
    · exact h2

theorem mem_trimStr_iff {c : Char} (hc : jsWs c = false) (l : Str) :
    c ∈ trimStr l ↔ c ∈ l := by
  unfold trimStr
  rw [List.mem_reverse, mem_dropWhile_iff hc, List.mem_reverse,
    mem_dropWhile_iff hc]

theorem contains_trimStr {c : Char} (hc : jsWs c = false) (l : Str) :
    (trimStr l).contains c = l.contains c := by
  rw [Bool.eq_iff_iff, List.contains_eq_any_beq, List.contains_eq_any_beq]
  simp only [List.any_eq_true, beq_iff_eq]
  constructor
  · rintro ⟨x, hx, rfl⟩
    exact ⟨c, (mem_trimStr_iff hc l).mp hx, rfl⟩
  · rintro ⟨x, hx, rfl⟩
    exact ⟨c, (mem_trimStr_iff hc l).mpr hx, rfl⟩

theorem braceOpen_not_ws : jsWs braceOpen = false := by decide

theorem braceClose_not_ws : jsWs braceClose = false := by decide

theorem one_brace_cases {l : Str} (hone : (l.filter isBrace).length ≤ 1) :
    ¬(braceOpen ∈ l ∧ braceClose ∈ l) := by
  rintro ⟨ho, hc⟩
  have h2 : 2 ≤ (l.filter isBrace).length := by
    clear hone
    induction l with
    | nil => exact absurd ho (List.not_mem_nil _)
    | cons c r ih =>
      by_cases h1 : c = braceOpen
      · subst h1
        have hcr : braceClose ∈ r := by
          rcases List.mem_cons.mp hc with h | h
          · exact absurd h (by decide)
          · exact h
        have hmem : braceClose ∈ r.filter isBrace :=
          List.mem_filter.mpr ⟨hcr, by decide⟩
        have hpos : 0 < (r.filter isBrace).length := List.length_pos_of_mem hmem
        rw [List.filter_cons, if_pos (by decide)]
        simp only [List.length_cons]
        omega
      · by_cases h2c : c = braceClose
        · subst h2c
          have hor : braceOpen ∈ r := by
            rcases List.mem_cons.mp ho with h | h
            · exact absurd h (by decide)
            · exact h
          have hmem : braceOpen ∈ r.filter isBrace :=
            List.mem_filter.mpr ⟨hor, by decide⟩
          have hpos : 0 < (r.filter isBrace).length := List.length_pos_of_mem hmem
          rw [List.filter_cons, if_pos (by decide)]
          simp only [List.length_cons]
          omega
        · have hor : braceOpen ∈ r := by
            rcases List.mem_cons.mp ho with h | h
            · exact absurd h.symm h1
            · exact h
          have hcr : braceClose ∈ r := by
            rcases List.mem_cons.mp hc with h | h
            · exact absurd h.symm h2c
            · exact h
          have hbr : isBrace c = false := by
            unfold isBrace
            simp [h1, h2c]
          rw [List.filter_cons, if_neg (by simp [hbr])]
          exact ih hor hcr
  omega

theorem contains_cons_self (c : Char) (r : Str) : (c :: r).contains c = true := by
  rw [List.contains_eq_any_beq]
  simp

theorem contains_cons_ne {c x : Char} (r : Str) (h : ¬c = x) :
    (c :: r).contains x = r.contains x := by
  rw [List.contains_eq_any_beq, List.contains_eq_any_beq]
  simp [Ne.symm h]

theorem contains_false_of_no_brace {l : Str} (h : ∀ c ∈ l, isBrace c = false)
    {x : Char} (hx : isBrace x = true) : l.contains x = false := by
  rw [List.contains_eq_any_beq]
  rw [Bool.eq_false_iff]
  intro hc
  obtain ⟨a, ha, hab⟩ := List.any_eq_true.mp hc
  rw [beq_iff_eq] at hab
  rw [← hab] at ha
  rw [h x ha] at hx
  exact absurd hx (by simp)

theorem no_brace_of_filter_zero {l : Str} (h : (l.filter isBrace).length = 0) :
    ∀ c ∈ l, isBrace c = false := by
  intro c hc
  rw [List.length_eq_zero] at h
  have := List.filter_eq_nil_iff.mp h c hc
  simpa using this

theorem braceStep_line {l0 : Str} (hone : (l0.filter isBrace).length ≤ 1) :
    ∀ d m : Int, d ≤ m →
      braceStep (d, m) l0 = (lineStepNl d l0, max m (lineStepNl d l0)) := by
  induction l0 with
  | nil =>
    intro d m hdm
    unfold lineStepNl
    simp only [List.contains_nil, if_false, Bool.false_eq_true]
    rw [braceStep, max_eq_left hdm]
  | cons c r ih =>
    intro d m hdm
    by_cases ho : c = braceOpen
    · subst ho
      have hz : (r.filter isBrace).length = 0 := by
        rw [List.filter_cons, if_pos (by decide)] at hone
        simp only [List.length_cons] at hone
        omega
      have hnb := no_brace_of_filter_zero hz
      have hcl : braceClose ∉ (braceOpen :: r) := by
        intro hmem
        rcases List.mem_cons.mp hmem with h | h
        · exact absurd h (by decide)
        · have := hnb _ h
          rw [show isBrace braceClose = true from by decide] at this
          exact absurd this (by simp)
      unfold lineStepNl
      rw [contains_cons_self]
      have hclb : (braceOpen :: r).contains braceClose = false := by
        rw [List.contains_eq_any_beq, Bool.eq_false_iff]
        intro hc
        obtain ⟨a, ha, hab⟩ := List.any_eq_true.mp hc
        rw [beq_iff_eq] at hab
        rw [← hab] at ha
        exact hcl ha
      rw [hclb]
      simp only [if_true, Bool.false_eq_true, if_false]
      rw [braceStep, if_pos rfl]
      exact braceStep_no_brace hnb _
    · by_cases hc : c = braceClose
      · subst hc
        have hz : (r.filter isBrace).length = 0 := by
          rw [List.filter_cons, if_pos (by decide)] at hone
          simp only [List.length_cons] at hone
          omega
        have hnb := no_brace_of_filter_zero hz
        unfold lineStepNl
        have hob : (braceClose :: r).contains braceOpen = false := by
          rw [contains_cons_ne _ (by decide)]
          exact contains_false_of_no_brace hnb (by decide)
        rw [hob, contains_cons_self]
        simp only [Bool.false_eq_true, if_false, if_true]
        rw [braceStep, if_neg (by decide), if_pos rfl]
        rw [braceStep_no_brace hnb]
        have hm : max m (d - 1) = m := max_eq_left (by omega)
        rw [hm]
      · have hone' : (r.filter isBrace).length ≤ 1 := by
          rw [List.filter_cons] at hone
          have hbr : isBrace c = false := by
            unfold isBrace
            simp [ho, hc]
          rw [if_neg (by simp [hbr])] at hone
          exact hone
        unfold lineStepNl
        rw [contains_cons_ne _ ho, contains_cons_ne _ hc]
        rw [braceStep, if_neg ho, if_neg hc]
        have := ih hone' d m hdm
        unfold lineStepNl at this
        exact this

theorem lineNest_cons (nl mx : Int) (l0 : Str) (ls : List Str) :
    lineNest nl mx (l0 :: ls) =
      lineNest (lineStepNl nl l0) (max mx (lineStepNl nl l0)) ls := by
  rw [lineNest]
  unfold lineStepNl
  simp only [contains_trimStr braceOpen_not_ws, contains_trimStr braceClose_not_ws]

theorem lineNest_eq_braceStep :
    ∀ (lines : List Str), (∀ l ∈ lines, (l.filter isBrace).length ≤ 1) →
      ∀ nl mx : Int, nl ≤ mx →
        lineNest nl mx lines = (braceStep (nl, mx) (joinNl lines)).2 := by
  intro lines
  induction lines with
  | nil => intro _ nl mx _; rfl
  | cons l ls ih =>
    intro hone nl mx hnm
    rw [lineNest_cons]
    have hbl := braceStep_line (hone l (List.mem_cons_self ..)) nl mx hnm
    rcases ls with _ | ⟨l2, ls2⟩
    · rw [show joinNl [l] = l from rfl, hbl]
      rfl
    · rw [show joinNl (l :: l2 :: ls2) = l ++ '\n' :: joinNl (l2 :: ls2) from rfl]
      rw [braceStep_append, hbl]
      rw [show ∀ q : Int × Int, ∀ s, braceStep q ('\n' :: s) = braceStep q s from
        fun q s => by
          obtain ⟨d, m⟩ := q
          rw [braceStep, if_neg (by decide), if_neg (by decide)]]
      exact ih (fun x hx => hone x (List.mem_cons_of_mem _ hx)) _ _
        (le_max_right _ _)

theorem complexityStep_nl (i : Nat) (fs : Option Nat) (fl : Nat) (nl : Int)
    (l : Str) :
    (complexityStep i fs fl nl l).2.1 =
      (if l.contains braceClose then
        (if l.contains braceOpen then nl + 1 else nl) - 1
      else if l.contains braceOpen then nl + 1 else nl) := by
  unfold complexityStep
  dsimp only
  split_ifs <;> rfl

theorem complexityStep_impact (i : Nat) (fs : Option Nat) (fl : Nat) (nl : Int)
    (l : Str) :
    ∀ s ∈ (complexityStep i fs fl nl l).1, s.impact = .medium := by
  intro s hs
  unfold complexityStep at hs
  dsimp only at hs
  revert hs
  split_ifs <;> intro hs <;> (try dsimp only at hs) <;>
    first
      | exact absurd hs (List.not_mem_nil s)
      | (rw [List.mem_singleton.mp hs])

theorem complexityLoop_mx :
    ∀ (lines : List Str) (i : Nat) (fs : Option Nat) (fl : Nat) (nl mx : Int),
      (complexityLoop i fs fl nl mx lines).2 = lineNest nl mx lines := by
  intro lines
  induction lines with
  | nil => intro i fs fl nl mx; rfl
  | cons l ls ih =>
    intro i fs fl nl mx
    rw [complexityLoop, lineNest_cons]
    have hnl : (complexityStep i fs fl nl (trimStr l)).2.1 = lineStepNl nl l := by
      rw [complexityStep_nl]
      unfold lineStepNl
      simp only [contains_trimStr braceOpen_not_ws,
        contains_trimStr braceClose_not_ws]
    simp only [hnl, ih]

theorem complexityLoop_impact :
    ∀ (lines : List Str) (i : Nat) (fs : Option Nat) (fl : Nat) (nl mx : Int),
      ∀ s ∈ (complexityLoop i fs fl nl mx lines).1, s.impact = .medium := by
  intro lines
  induction lines with
  | nil =>
    intro i fs fl nl mx s hs
    exact absurd hs (by simp [complexityLoop])
  | cons l ls ih =>
    intro i fs fl nl mx s hs
    rw [complexityLoop] at hs
    simp only [List.mem_append] at hs
    rcases hs with h1 | h2
    · exact complexityStep_impact i fs fl nl (trimStr l) s h1
    · exact ih _ _ _ _ _ s h2

theorem analyzeComplexity_nesting_iff (content : Str) :
    (∃ s ∈ analyzeComplexity content, IsNestingSuggestion s) ↔
      (complexityLoop 0 none 0 0 0 (splitNl content)).2 > 4 := by
  unfold analyzeComplexity
  constructor
  · rintro ⟨s, hs, hn⟩
    rcases List.mem_append.mp hs with h1 | h2
    · have hm := complexityLoop_impact _ 0 none 0 0 0 s h1
      rw [hn.1] at hm
      exact absurd hm (by simp)
    · by_cases hgt : (complexityLoop 0 none 0 0 0 (splitNl content)).2 > 4
      · exact hgt
      · rw [if_neg hgt] at h2
        exact absurd h2 (List.not_mem_nil s)
  · intro hgt
    refine ⟨⟨"complexity",
      highNestingMessage (complexityLoop 0 none 0 0 0 (splitNl content)).2, none,
      nestingAdvice, .high⟩, ?_, rfl, _, rfl⟩
    exact List.mem_append_right _ (by rw [if_pos hgt]; exact List.mem_singleton_self _)

/-- C5 (amended): on source text that writes braces one per line, reaching
5 nested brace levels makes `analyzeComplexity` emit the high-impact
excessive-nesting suggestion, while a maximal brace depth of 3 produces no
excessive-nesting suggestion.  (The loop counts at most one brace per line,
so the claim is stated for texts where that count agrees with real brace
nesting.) -/
theorem analyzeComplexity_nesting_claim (content : Str)
    (hone : OneBracePerLine content) :
    (charMaxDepth content ≥ 5 →
      ∃ s ∈ analyzeComplexity content, IsNestingSuggestion s) ∧
    (charMaxDepth content ≤ 3 →
      ∀ s ∈ analyzeComplexity content, ¬ IsNestingSuggestion s) := by
  have hmx : (complexityLoop 0 none 0 0 0 (splitNl content)).2 =
      charMaxDepth content := by
    rw [complexityLoop_mx]
    rw [lineNest_eq_braceStep (splitNl content) hone 0 0 le_rfl]
    rw [joinNl_splitNl]
    rw [charMaxDepth, braceDepthMax_eq_braceStep]
  constructor
  · intro h5
    exact (analyzeComplexity_nesting_iff content).mpr (by rw [hmx]; omega)
  · intro h3 s hs hn
    have hgt := (analyzeComplexity_nesting_iff content).mp ⟨s, hs, hn⟩
    rw [hmx] at hgt
    omega

/-- Witness for C5: the five-level one-brace-per-line function is flagged
with the high-impact nesting suggestion; the three-level one is not. -/
theorem analyzeComplexity_nesting_claim_witness :
    (∃ s ∈ analyzeComplexity nestFiveLines, IsNestingSuggestion s) ∧
      (∀ s ∈ analyzeComplexity nestThreeLines, ¬ IsNestingSuggestion s) :=
  ⟨(analyzeComplexity_nesting_claim nestFiveLines (by decide)).1 (by decide),
    (analyzeComplexity_nesting_claim nestThreeLines (by decide)).2 (by decide)⟩

/-- Counterexample for C5 as stated: a function whose braces reach 5 nested
levels, written on a single line, produces no suggestion at all — the loop
counts at most one brace per line. -/
theorem analyzeComplexity_counterexample :
    charMaxDepth nestOneLine = 5 ∧ analyzeComplexity nestOneLine = [] := by
  constructor
  · decide
  · decide

/-! ## Claims C1 and C6: the diff parser -/

theorem processHunkLines_other {c : Char} (h1 : ¬c = '+') (h2 : ¬c = '-')
    (sugg : Str → Str) (cur : Nat) (cs : Str) (ls : List Str) :
    processHunkLines sugg cur ((c :: cs) :: ls) =
      processHunkLines sugg (cur + 1) ls := by
  rw [processHunkLines.eq_def]
  split
  · rename_i heq
    simp at heq
  · rename_i heq
    rw [List.cons.injEq] at heq
    simp at heq
  · rename_i content ls' heq
    rw [List.cons.injEq, List.cons.injEq] at heq
    exact absurd heq.1.1 h1
  · rename_i content ls' heq
    rw [List.cons.injEq, List.cons.injEq] at heq
    exact absurd heq.1.1 h2
  · rename_i x xs ls' _ _ heq
    rw [List.cons.injEq] at heq
    rw [heq.2]

theorem specAddNumbers_nil (startLine : Nat) : specAddNumbers startLine [] = [] := rfl

theorem specAddNumbers_cons (startLine : Nat) (l : Str) (ls : List Str) :
    specAddNumbers startLine (l :: ls) =
      (if isAddLine l then [startLine] else []) ++
        specAddNumbers (startLine + (if isNonRemoval l then 1 else 0)) ls := by
  unfold specAddNumbers
  rw [List.length_cons, List.range_succ_eq_map, List.filterMap_cons]
  have hhead : (if isAddLine ((l :: ls).getD 0 []) then
      some (startLine + nonRemovalCount ((l :: ls).take 0)) else none) =
      if isAddLine l then some startLine else none := by
    simp [nonRemovalCount]
  have htail : ∀ j : Nat,
      (if isAddLine ((l :: ls).getD (j + 1) []) then
        some (startLine + nonRemovalCount ((l :: ls).take (j + 1))) else none) =
      (if isAddLine (ls.getD j []) then
        some ((startLine + (if isNonRemoval l then 1 else 0)) +
          nonRemovalCount (ls.take j)) else none) := by
    intro j
    have hcount : nonRemovalCount ((l :: ls).take (j + 1)) =
        (if isNonRemoval l then 1 else 0) + nonRemovalCount (ls.take j) := by
      rw [List.take_succ_cons]
      unfold nonRemovalCount
      rw [List.filter_cons]
      split_ifs <;> simp [Nat.add_comm]
    rw [hcount]
    have : startLine + ((if isNonRemoval l then 1 else 0) + nonRemovalCount (ls.take j)) =
        (startLine + (if isNonRemoval l then 1 else 0)) + nonRemovalCount (ls.take j) := by
      omega
    rw [this]
    rfl
  rw [List.filterMap_map]
  have hfun : ((fun j => if isAddLine ((l :: ls).getD j []) then
        some (startLine + nonRemovalCount ((l :: ls).take j)) else none) ∘ Nat.succ) =
      (fun j => if isAddLine (ls.getD j []) then
        some ((startLine + (if isNonRemoval l then 1 else 0)) +
          nonRemovalCount (ls.take j)) else none) := by
    funext j
    exact htail j
  rw [hfun, hhead]
  split_ifs <;> simp

theorem addLineNumbers_cons (c : Change) (cs : List Change) :
    addLineNumbers (c :: cs) =
      (if c.type = .add then [c.lineNumber] else []) ++ addLineNumbers cs := by
  unfold addLineNumbers
  rw [List.filterMap_cons]
  split_ifs <;> simp

theorem addLineNumbers_processHunkLines (sugg : Str → Str) :
    ∀ (lines : List Str) (startLine : Nat),
      addLineNumbers (processHunkLines sugg startLine lines) =
        specAddNumbers startLine lines := by
  intro lines
  induction lines with
  | nil => intro startLine; rfl
  | cons l ls ih =>
    intro startLine
    rw [specAddNumbers_cons]
    rcases l with _ | ⟨c, cs⟩
    · rw [show processHunkLines sugg startLine ([] :: ls) =
        processHunkLines sugg startLine ls from rfl]
      rw [ih]
      simp [isAddLine, isNonRemoval]
    · by_cases h1 : c = '+'
      · subst h1
        rw [show processHunkLines sugg startLine (('+' :: cs) :: ls) =
          ⟨.add, startLine, cs, sugg cs⟩ ::
            processHunkLines sugg (startLine + 1) ls from rfl]
        rw [addLineNumbers_cons, ih]
        rw [show isAddLine ('+' :: cs) = true from rfl,
          show isNonRemoval ('+' :: cs) = true from rfl]
        simp
      · by_cases h2 : c = '-'
        · subst h2
          rw [show processHunkLines sugg startLine (('-' :: cs) :: ls) =
            ⟨.remove, startLine, cs, sugg cs⟩ ::
              processHunkLines sugg startLine ls from rfl]
          rw [addLineNumbers_cons, ih]
          rw [show isAddLine ('-' :: cs) = false from rfl,
            show isNonRemoval ('-' :: cs) = false from rfl]
          simp
        · rw [processHunkLines_other h1 h2]
          rw [ih]
          have ha : isAddLine (c :: cs) = false := by
            rw [isAddLine.eq_def]
            split
            · rename_i heq
              rw [List.cons.injEq] at heq
              exact absurd heq.1 h1
            · rfl
          have hn : isNonRemoval (c :: cs) = true := by
            show (c != '-') = true
            simp [h2]
          rw [ha, hn]
          simp

theorem isNonRemoval_of_isAddLine {l : Str} (h : isAddLine l = true) :
    isNonRemoval l = true := by
  rcases l with _ | ⟨c, cs⟩
  · exact absurd h (by simp [isAddLine])
  · have hc : c = '+' := by
      rw [isAddLine.eq_def] at h
      revert h
      split
      · rename_i heq
        rw [List.cons.injEq] at heq
        intro _
        exact heq.1
      · intro h
        exact absurd h (by simp)
    subst hc
    rfl

theorem specAddNumbers_chain :
    ∀ (lines : List Str) (startLine : Nat),
      List.Chain' (· < ·) (specAddNumbers startLine lines) ∧
        ∀ x ∈ specAddNumbers startLine lines, startLine ≤ x := by
  intro lines
  induction lines with
  | nil => intro s; simp [specAddNumbers_nil]
  | cons l ls ih =>
    intro s
    rw [specAddNumbers_cons]
    by_cases ha : isAddLine l = true
    · rw [if_pos ha, isNonRemoval_of_isAddLine ha]
      simp only [if_pos rfl, List.singleton_append]
      constructor
      · rw [List.chain'_cons']
        refine ⟨?_, (ih (s + 1)).1⟩
        intro y hy
        have hmem : y ∈ specAddNumbers (s + 1) ls := List.mem_of_mem_head? hy
        have := (ih (s + 1)).2 y hmem
        omega
      · intro x hx
        rcases List.mem_cons.mp hx with rfl | hx'
        · exact le_rfl
        · have := (ih (s + 1)).2 x hx'
          omega
    · rw [if_neg ha, List.nil_append]
      refine ⟨(ih _).1, ?_⟩
      intro x hx
      have := (ih _).2 x hx
      omega

theorem flatten_hunkChanges (sugg : Str → Str) :
    ∀ L : List (Str × Str),
      (L.map (hunkChangesOf sugg)).flatten =
        ((L.filterMap hunkSpecFn).map
          fun q => processHunkLines sugg q.1 q.2).flatten := by
  intro L
  induction L with
  | nil => rfl
  | cons p ps ih =>
    rw [List.map_cons, List.flatten_cons, List.filterMap_cons]
    by_cases hg : p.1 = [] ∨ p.2 = []
    · rw [show hunkSpecFn p = none from by unfold hunkSpecFn; rw [if_pos hg]]
      rw [show hunkChangesOf sugg p = [] from by
        unfold hunkChangesOf; rw [if_pos hg]]
      simpa using ih
    · rcases hf : findHunkStart p.1 with _ | n
      · rw [show hunkSpecFn p = none from by
          unfold hunkSpecFn; rw [if_neg hg, hf]]
        rw [show hunkChangesOf sugg p = [] from by
          unfold hunkChangesOf; rw [if_neg hg, hf]]
        simpa using ih
      · rw [show hunkSpecFn p = some (n, splitNl p.2) from by
          unfold hunkSpecFn; rw [if_neg hg, hf]]
        rw [show hunkChangesOf sugg p = processHunkLines sugg n (splitNl p.2) from by
          unfold hunkChangesOf; rw [if_neg hg, hf]]
        rw [List.map_cons, List.flatten_cons, ih]

theorem segmentChanges_decomp (sugg : Str → Str) (seg : Str) :
    segmentChanges sugg seg =
      ((hunkSpecs seg).map fun q => processHunkLines sugg q.1 q.2).flatten := by
  unfold segmentChanges hunkSpecs
  exact flatten_hunkChanges sugg _

theorem parseSegment_changes {sugg rel : Str → Str} {seg : Str}
    {d : CodeDifference} (h : parseSegment sugg rel seg = some d) :
    d.changes = segmentChanges sugg seg ∧ segmentChanges sugg seg ≠ [] := by
  unfold parseSegment at h
  by_cases hws : seg.all jsWs
  · rw [if_pos hws] at h
    exact absurd h (by simp)
  · rw [if_neg hws] at h
    rcases hm : matchFilePath seg with _ | fp
    · rw [hm] at h
      exact absurd h (by simp)
    · rw [hm] at h
      dsimp only at h
      by_cases hc : segmentChanges sugg seg = []
      · rw [if_pos hc] at h
        exact absurd h (by simp)
      · rw [if_neg hc] at h
        have hd := Option.some.injEq .. ▸ h
        simp only [Option.some.injEq] at h
        rw [← h]
        exact ⟨rfl, hc⟩

theorem addLineNumbers_flatten (L : List (List Change)) :
    addLineNumbers L.flatten = (L.map addLineNumbers).flatten := by
  induction L with
  | nil => rfl
  | cons a l ih =>
    show List.filterMap _ (a ++ l.flatten) = _
    rw [List.filterMap_append]
    unfold addLineNumbers at ih ⊢
    rw [ih]
    rfl

/-- C1 (amended): `parseDiff` is the per-segment filter over the
`diff --git` split, and for every segment that yields a file entry, the
addition line numbers of that entry are exactly, hunk by hunk of the
segment's parsed hunks (`hunkSpecs`: the `@@` split with each hunk's
declared new-side starting line), the hunk's declared starting line plus
the count of preceding non-removal lines among the hunk content's split
lines (the remnant of the `@@` header line counted when present); within
each such hunk they are strictly increasing.  Strict increase across
different hunks of one file is not guaranteed. -/
theorem parseDiff_addLines_perHunk (sugg rel : Str → Str) (diff : Str) :
    parseDiff sugg rel diff =
      (splitDiffGit diff).filterMap (parseSegment sugg rel) ∧
    ∀ seg ∈ splitDiffGit diff, ∀ d : CodeDifference,
      parseSegment sugg rel seg = some d →
      addLineNumbers d.changes =
        ((hunkSpecs seg).map fun p => specAddNumbers p.1 p.2).flatten ∧
      ∀ p ∈ hunkSpecs seg, List.Chain' (· < ·) (specAddNumbers p.1 p.2) := by
  refine ⟨rfl, ?_⟩
  intro seg _ d hparse
  obtain ⟨hch, _⟩ := parseSegment_changes hparse
  constructor
  · rw [hch, segmentChanges_decomp, addLineNumbers_flatten, List.map_map]
    refine congrArg List.flatten (List.map_congr_left ?_)
    intro p _
    exact addLineNumbers_processHunkLines sugg p.2 p.1
  · intro p _
    exact (specAddNumbers_chain p.2 p.1).1

/-- Witness for C1: the segment of the concrete one-hunk diff `diffSimple`
yields the entry whose single addition is numbered by the hunk's declared
start plus one preceding context line, matching the spec formula hunk by
hunk. -/
theorem parseDiff_addLines_perHunk_witness :
    addLineNumbers (CodeDifference.mk ("f.txt".data)
        [⟨.add, 2, "new".data, []⟩]).changes =
      ((hunkSpecs segSimple).map fun p => specAddNumbers p.1 p.2).flatten ∧
    ∀ p ∈ hunkSpecs segSimple, List.Chain' (· < ·) (specAddNumbers p.1 p.2) :=
  (parseDiff_addLines_perHunk (fun _ => []) id diffSimple).2 segSimple
    (by decide) ⟨"f.txt".data, [⟨.add, 2, "new".data, []⟩]⟩ (by decide)

/-- Counterexample for C1 as stated: on `diffCounter` the single emitted
file entry carries additions numbered 12 and then 1 — not strictly
increasing within the file (and 12 shows the header-remnant advancing the
counter past the declared start plus the context count). -/
theorem parseDiff_addLines_counterexample :
    (parseDiff (fun _ => []) id diffCounter).map
        (fun d => addLineNumbers d.changes) = [[12, 1]] ∧
      ¬ List.Chain' (· < ·) [12, 1] := by
  constructor
  · decide
  · intro h
    rw [List.chain'_cons] at h
    exact absurd h.1 (by omega)

theorem hunkSpecs_eq_nil {seg : Str}
    (h : ∀ p ∈ pairHunks ((splitAtAt seg).drop 1), findHunkStart p.1 = none) :
    hunkSpecs seg = [] := by
  unfold hunkSpecs
  rw [List.filterMap_eq_nil_iff]
  intro p hp
  unfold hunkSpecFn
  rw [h p hp]
  split_ifs <;> rfl

/-- C6: `parseDiff` omits files with zero change records — every emitted
entry has a non-empty change list, segments without a recognizable
`a/<path> b/` header are skipped, file segments with no parseable
`-old,+new` hunk marker produce no entry, and the parser is exactly the
per-segment filter over the `diff --git` split. -/
theorem parseDiff_omits_empty (sugg rel : Str → Str) (diff : Str) :
    (∀ d ∈ parseDiff sugg rel diff, d.changes ≠ []) ∧
    (∀ seg, matchFilePath seg = none → parseSegment sugg rel seg = none) ∧
    (∀ seg,
      (∀ p ∈ pairHunks ((splitAtAt seg).drop 1), findHunkStart p.1 = none) →
      parseSegment sugg rel seg = none) ∧
    parseDiff sugg rel diff = (splitDiffGit diff).filterMap (parseSegment sugg rel) := by
  refine ⟨?_, ?_, ?_, rfl⟩
  · intro d hd
    obtain ⟨seg, _, hparse⟩ := List.mem_filterMap.mp hd
    obtain ⟨hch, hne⟩ := parseSegment_changes hparse
    rw [hch]
    exact hne
  · intro seg hm
    unfold parseSegment
    rw [hm]
    split_ifs <;> rfl
  · intro seg hnone
    unfold parseSegment
    by_cases hws : seg.all jsWs
    · rw [if_pos hws]
    · rw [if_neg hws]
      rcases hm : matchFilePath seg with _ | fp
      · rfl
      · dsimp only
        rw [show segmentChanges sugg seg = [] from by
          rw [segmentChanges_decomp, hunkSpecs_eq_nil hnone]
          rfl]
        rfl

/-- Witness for C6: the entry of a concrete diff has a non-empty change
list, a header-less segment is skipped, and a segment whose hunk marker is
unparseable yields no entry. -/
theorem parseDiff_omits_empty_witness :
    (∀ d ∈ parseDiff (fun _ => []) id diffSimple, d.changes ≠ []) ∧
      parseSegment (fun _ => []) id ("no header here".data) = none ∧
      parseSegment (fun _ => []) id segBadHunk = none := by
  obtain ⟨h1, h2, h3, _⟩ := parseDiff_omits_empty (fun _ => []) id diffSimple
  exact ⟨h1, h2 _ (by decide), h3 _ (by decide)⟩

end RepoAnalyzer
